import Mathlib

/-!
Verification development for the `hft-lab` NBBO research pipeline.

The C++ sources are shallowly embedded: prices, sizes and returns are
rationals (the doubles/floats of the source, with `Option ℚ` encoding a
nullable / NaN slot), timestamps are the source's decimal-encoded
`YYYYMMDDHHMMSSmmm` naturals, and each stateful loop becomes an explicit
fold over a state structure.  `std::log(mid/prev)` is kept abstract as a
parameter `logFn : ℚ → ℚ → ℚ` (applied as `logFn mid prev`): none of the
properties below depend on the value of the logarithm, only on where the
code computes one, emits `0.0`, or emits NaN/null.
-/

set_option linter.unusedVariables false

/- `Rat`'s arithmetic kernels are `@[irreducible]` in this toolchain;
re-expose them so that concrete runs of the embedded pipeline reduce
under `decide`/`rfl` (the kernel itself ignores reducibility, so proofs
are unaffected). -/
unseal Rat.mul Rat.inv Rat.add Rat.sub Rat.ofScientific

/-! ## Time utilities (include/nbbo/time_utils.hpp) -/

/-- `nbbo::ymd`: extract YYYYMMDD from the full timestamp. -/
def ymd (ts : ℕ) : ℕ := ts / 1000000000

/-- `nbbo::hh`: hour field. -/
def hh (ts : ℕ) : ℕ := ts / 10000000 % 100

/-- `nbbo::mm`: minute field. -/
def mm (ts : ℕ) : ℕ := ts / 100000 % 100

/-- `nbbo::ss`: second field. -/
def ss (ts : ℕ) : ℕ := ts / 1000 % 100

/-- `nbbo::mmm`: millisecond field. -/
def mmm (ts : ℕ) : ℕ := ts % 1000

/-- `nbbo::same_day`: two timestamps fall on the same calendar day. -/
def same_day (a b : ℕ) : Prop := ymd a = ymd b

instance (a b : ℕ) : Decidable (same_day a b) :=
  inferInstanceAs (Decidable (ymd a = ymd b))

/-- `nbbo::ms_since_midnight`. -/
def ms_since_midnight (ts : ℕ) : ℕ :=
  ((hh ts * 60 + mm ts) * 60 + ss ts) * 1000 + mmm ts

/-- `nbbo::day_from_ts` (same arithmetic as `ymd`). -/
def day_from_ts (ts : ℕ) : ℕ := ts / 1000000000

/-- `nbbo::year_from_ts`. -/
def year_from_ts (ts : ℕ) : ℕ := ts / 10000000000000

/-- `nbbo::inc_ms`: increment by 1 ms with intraday carry only
(no calendar rollover, as documented in the header). -/
def inc_ms (ts : ℕ) : ℕ :=
  let H := hh ts
  let M := mm ts
  let S := ss ts
  let MS := mmm ts
  let Y := ts / 1000000000000
  let Mon := ts / 10000000000 % 100
  let D := ts / 100000000 % 100
  let f : ℕ × ℕ × ℕ × ℕ :=
    if MS + 1 = 1000 then
      if S + 1 = 60 then
        if M + 1 = 60 then (H + 1, 0, 0, 0)
        else (H, M + 1, 0, 0)
      else (H, M, S + 1, 0)
    else (H, M, S, MS + 1)
  Y * 1000000000000 + Mon * 10000000000 + D * 100000000 +
    f.1 * 10000000 + f.2.1 * 100000 + f.2.2.1 * 1000 + f.2.2.2

/-- A well-formed timestamp: the decimal time-of-day fields are in range
(the encoding stipulated by the data model: `YYYYMMDD·10⁹ + HH·10⁷ +
MM·10⁵ + SS·10³ + mmm` with the usual field bounds). -/
def ValidTs (ts : ℕ) : Prop :=
  hh ts < 24 ∧ mm ts < 60 ∧ ss ts < 60

instance (ts : ℕ) : Decidable (ValidTs ts) :=
  inferInstanceAs (Decidable (hh ts < 24 ∧ mm ts < 60 ∧ ss ts < 60))

/-! ## Stage A: NBBO aggregation (nbbo_pipeline.cpp) -/

/-- Glitch categories of the aggregator's counter map. -/
inductive GlitchCat
  | parse_fail
  | nonpos_field
  | nonpos_price
  | locked_crossed
deriving DecidableEq

/-- The aggregator settings relevant to emission (struct `Settings`). -/
structure Settings where
  clock_grid : Bool := false
  ffill : Bool := false
  max_ffill_gap_ms : ℤ := 250
  rth_start_h : ℤ := 9
  rth_start_m : ℤ := 30
  rth_end_h : ℤ := 16
  rth_end_m : ℤ := 0
  venues : List Char := ['P', 'T', 'Q', 'Z', 'Y', 'J', 'K']

/-- A raw quote line after field splitting and numeric parsing
(the CSV text layer, which always succeeds on these records, is not
modelled; `qc` is the quote-condition field's characters). -/
structure RawQuote where
  date : ℕ
  h : ℕ
  m : ℕ
  s : ℕ
  msec : ℕ
  ex : Char
  bid : ℚ
  ask : ℚ
  bidSize : ℤ
  askSize : ℤ
  qc : List Char
deriving DecidableEq

/-- The in-memory quote (struct `Quote`). -/
structure Quote where
  ts : ℕ
  bid : ℚ
  ask : ℚ
  bidSize : ℤ
  askSize : ℤ
  ex : Char
deriving DecidableEq

/-- An emitted per-ms row (struct `Row` / `MsBinRow`); `logret = none`
encodes the NaN written for a null log-return. -/
structure Row where
  ts : ℕ := 0
  mid : ℚ := 0
  logret : Option ℚ := none
  bidSize : ℚ := 0
  askSize : ℚ := 0
  spread : ℚ := 0
  bid : ℚ := 0
  ask : ℚ := 0
deriving DecidableEq

instance : Inhabited Row := ⟨{}⟩

/-- `in_rth` (half-open RTH window test). -/
def in_rth (h m s : ℕ) (S : Settings) : Bool :=
  if (h : ℤ) < S.rth_start_h ∨ (h : ℤ) > S.rth_end_h - 1 then false
  else if (h : ℤ) = S.rth_start_h ∧ (m : ℤ) < S.rth_start_m then false
  else if (h : ℤ) = S.rth_end_h then false
  else true

/-- `is_good_ex`. -/
def is_good_ex (ex : Char) (S : Settings) : Bool := S.venues.contains ex

/-- Struct `NBBOBucket`; `bestAsk = none` encodes the `+∞` initializer
(every accepted quote's ask compares below it). -/
structure NBBOBucket where
  ms : ℕ := 0
  bestBid : ℚ := 0
  bestAsk : Option ℚ := none
  bidSz : ℤ := 0
  askSz : ℤ := 0
  any : Bool := false
deriving DecidableEq

/-- `NBBOBucket::reset`. -/
def NBBOBucket.reset (t : ℕ) : NBBOBucket :=
  { ms := t, bestBid := 0, bestAsk := none, bidSz := 0, askSz := 0, any := false }

/-- `q.ask < bestAsk` with `none` standing for `+∞`. -/
def ltInf (q : ℚ) (o : Option ℚ) : Bool :=
  match o with
  | none => true
  | some a => decide (q < a)

/-- `NBBOBucket::upd`: returns the updated bucket and the glitch
category bumped, if any. -/
def NBBOBucket.upd (b : NBBOBucket) (q : Quote) : NBBOBucket × Option GlitchCat :=
  if q.bid ≤ 0 ∨ q.ask ≤ 0 then (b, some .nonpos_price)
  else if q.ask ≤ q.bid then (b, some .locked_crossed)
  else
    let b1 :=
      if q.bid > b.bestBid then
        { b with bestBid := q.bid, bidSz := q.bidSize, any := true }
      else b
    let b2 :=
      if ltInf q.ask b1.bestAsk then
        { b1 with bestAsk := some q.ask, askSz := q.askSize, any := true }
      else b1
    (b2, none)

/-- `NBBOBucket::out`: finalize the bucket into a Row (the `new_mid`
out-parameter equals the returned row's `mid`). -/
def NBBOBucket.out (b : NBBOBucket) (prev_mid : ℚ) (set_lr : Bool)
    (logFn : ℚ → ℚ → ℚ) : Option Row :=
  if b.any = false then none
  else
    match b.bestAsk with
    | none => none
    | some ask0 =>
      let mid := 0.5 * (b.bestBid + ask0)
      let lr : Option ℚ :=
        if set_lr ∧ prev_mid > 0 ∧ mid > 0 then some (logFn mid prev_mid) else none
      some { ts := b.ms, mid := mid, logret := lr,
             bidSize := (b.bidSz : ℚ), askSize := (b.askSz : ℚ),
             spread := ask0 - b.bestBid, bid := b.bestBid, ask := ask0 }

/-- The synthetic fill rows of the clock grid: `gap` copies of the
previous row with `ts` advanced by one ms each and `log_return = 0`
(stage A lines emitting `f = prev_row; f.ts = t; f.logret = 0.0f`,
identically the loop of `event_to_clock_ffill_parallel`). -/
def mkFills (prev : Row) (t : ℕ) : ℕ → List Row
  | 0 => []
  | Nat.succ g =>
    let t' := inc_ms t
    { prev with ts := t', logret := some 0 } :: mkFills prev t' g

/-- Loop state of `Pipeline::process_file_to_msbin`. -/
structure AState where
  bucket : NBBOBucket := {}
  prev_mid : ℚ := 0
  prev_date : ℕ := 0
  have_prev : Bool := false
  prev_row : Row := {}
  have_prev_row : Bool := false
  last_emit : ℕ := 0
  glitches : List (GlitchCat × ℤ) := []
  out : List Row := []

/-- `ts` assembled from the parsed fields (line building
`d64*10⁹ + h·10⁷ + m·10⁵ + s·10³ + msec`). -/
def mkTs (q : RawQuote) : ℕ :=
  q.date * 1000000000 + q.h * 10000000 + q.m * 100000 + q.s * 1000 + q.msec

def glitchList (g : Option GlitchCat) (h : ℕ) : List (GlitchCat × ℤ) :=
  match g with
  | some c => [(c, (h : ℤ))]
  | none => []

/-- The clock-grid forward-fill block (lines 322–342): fills inserted
before the row about to be written, when clock mode with ffill is on. -/
def boundaryFills (S : Settings) (st : AState) (r : Row) : List Row :=
  if S.clock_grid ∧ S.ffill ∧ st.have_prev_row then
    if same_day st.last_emit r.ts then
      let gap : ℤ := (ms_since_midnight r.ts : ℤ) - (ms_since_midnight st.last_emit : ℤ) - 1
      if 0 < gap ∧ gap ≤ S.max_ffill_gap_ms then
        mkFills st.prev_row st.last_emit gap.toNat
      else []
    else []
  else []

/-- Bucket-boundary emission (lines 316–354 of `process_file_to_msbin`):
finalize the bucket, null the log-return on a missing/new-day baseline,
emit bounded forward-fills in clock mode, then write the row and update
the baselines.

Note: on a too-large gap or a day change the source assigns
`have_prev = false` (lines 338–341), but line 350 unconditionally
assigns `have_prev = true` in the same `if(ok)` block before any later
read, so the reset is dead; the resulting state below has
`have_prev := true`. -/
def emitBoundary (S : Settings) (logFn : ℚ → ℚ → ℚ) (st : AState) (ts : ℕ) : AState :=
  match st.bucket.out (if st.have_prev then st.prev_mid else 0) true logFn with
  | none => { st with bucket := NBBOBucket.reset ts }
  | some r0 =>
    let r := if ¬ st.have_prev ∨ ymd r0.ts ≠ st.prev_date then
               { r0 with logret := none } else r0
    let fills : List Row := boundaryFills S st r
    { bucket := NBBOBucket.reset ts, prev_mid := r.mid, prev_date := ymd r.ts,
      have_prev := true, prev_row := r, have_prev_row := true, last_emit := r.ts,
      glitches := st.glitches, out := st.out ++ fills ++ [r] }

/-- One iteration of the quote loop of `process_file_to_msbin`
(filters, timestamp assembly, boundary emission, bucket update). -/
def stepA (S : Settings) (logFn : ℚ → ℚ → ℚ) (st : AState) (rq : RawQuote) : AState :=
  if rq.qc ≠ ['R'] then st
  else if ¬ is_good_ex rq.ex S then st
  else if ¬ in_rth rq.h rq.m rq.s S then st
  else if rq.bid ≤ 0 ∨ rq.ask ≤ 0 ∨ rq.bidSize ≤ 0 ∨ rq.askSize ≤ 0 then
    { st with glitches := st.glitches ++ [(.nonpos_field, (rq.h : ℤ))] }
  else
    let ts := mkTs rq
    let st1 := if st.bucket.ms = 0 then { st with bucket := NBBOBucket.reset ts } else st
    let st2 := if ts ≠ st1.bucket.ms then emitBoundary S logFn st1 ts else st1
    let p := st2.bucket.upd { ts := ts, bid := rq.bid, ask := rq.ask,
                              bidSize := rq.bidSize, askSize := rq.askSize, ex := rq.ex }
    { st2 with bucket := p.1, glitches := st2.glitches ++ glitchList p.2 rq.h }

/-- End-of-file flush (lines 358–366): emit the last bucket without any
forward-fill, leaving the baselines untouched. -/
def flushA (logFn : ℚ → ℚ → ℚ) (st : AState) : AState :=
  if st.bucket.ms ≠ 0 then
    match st.bucket.out (if st.have_prev then st.prev_mid else 0) true logFn with
    | none => st
    | some r0 =>
      let r := if ¬ st.have_prev ∨ ymd r0.ts ≠ st.prev_date then
                 { r0 with logret := none } else r0
      { st with out := st.out ++ [r] }
  else st

/-- `Pipeline::process_file_to_msbin`: the emitted row stream of stage A
on one input file. -/
def processFile (S : Settings) (logFn : ℚ → ℚ → ℚ) (qs : List RawQuote) : List Row :=
  (flushA logFn (qs.foldl (stepA S logFn) {})).out

/-! ## Event→Clock synthesis (`Pipeline::event_to_clock_ffill_parallel`,
`convert_one`) -/

/-- Loop state of `convert_one`. -/
structure ConvState where
  prev : Row := {}
  have_prev : Bool := false
  last_emit_ts : ℕ := 0
  out : List Row := []

/-- One iteration of `convert_one`'s row loop. -/
def stepConv (S : Settings) (st : ConvState) (r : Row) : ConvState :=
  let fills : List Row :=
    if st.have_prev then
      if same_day st.last_emit_ts r.ts then
        let gap : ℤ := (ms_since_midnight r.ts : ℤ) - (ms_since_midnight st.last_emit_ts : ℤ) - 1
        if 0 < gap ∧ gap ≤ S.max_ffill_gap_ms then
          mkFills st.prev st.last_emit_ts gap.toNat
        else []
      else []
    else []
  { prev := r, have_prev := true, last_emit_ts := r.ts,
    out := st.out ++ fills ++ [r] }

/-- `convert_one`: derive the clock-grid stream from a cached event-grid
stream by bounded per-day forward-fill. -/
def convertOne (S : Settings) (rows : List Row) : List Row :=
  (rows.foldl (stepConv S) {}).out

/-! ## Stage B: parallel tail-quantile estimator
(`Pipeline::tail_quantiles_parallel`)

The bounded heaps are represented by their contents as ascending sorted
lists (a `priority_queue` is observationally its multiset of elements;
ascending order is the canonical form, and the final
"sort heap contents ascending" step of the source is then the
identity).  The `top()` of the max-heap `H_low` is the last element;
the `top()` of the min-heap `H_high` is the head.  Worker scheduling is
nondeterministic in the source; the embedding processes shards in list
order (the merged heap contents are order-independent, which is what
the rank theorem proves). -/

/-- Ordered insertion into an ascending list. -/
def insertAsc (v : ℚ) : List ℚ → List ℚ
  | [] => [v]
  | x :: xs => if v ≤ x then v :: x :: xs else x :: insertAsc v xs

/-- Canonical ascending sort (insertion sort). -/
def sortAsc (l : List ℚ) : List ℚ := l.foldr insertAsc []

/-- `push_low`: keep the `L` smallest values seen (max-heap behaviour:
push while below capacity, else replace the top when `v < top`). -/
def push_low (L : ℕ) (hp : List ℚ) (v : ℚ) : List ℚ :=
  if hp.length < L then insertAsc v hp
  else
    match hp.getLast? with
    | none => hp
    | some t => if v < t then insertAsc v hp.dropLast else hp

/-- `push_high`: keep the `L` largest values seen. -/
def push_high (L : ℕ) (hp : List ℚ) (v : ℚ) : List ℚ :=
  if hp.length < L then insertAsc v hp
  else
    match hp with
    | [] => hp
    | t :: rest => if v > t then insertAsc v rest else hp

/-- The suffix of the `L` last elements (for an ascending list, the `L`
largest; the ascending image of the min-heap that keeps the largest). -/
def lastL (L : ℕ) (l : List ℚ) : List ℚ := l.drop (l.length - L)

/-- The finite samples of one shard (`std::isfinite(r.logret)` filter;
`none` encodes a NaN log-return slot). -/
def finiteOf (sh : List (Option ℚ)) : List ℚ := sh.filterMap id

/-- All finite samples of all shards, in shard order. -/
def allSamples (shards : List (List (Option ℚ))) : List ℚ :=
  (shards.map finiteOf).flatten

/-- The merged global low heap: each worker folds its shard's finite
samples through `push_low` into a local heap, and the local heaps are
drained into the global one through `push_low` again. -/
def mergedLows (L : ℕ) (shards : List (List (Option ℚ))) : List ℚ :=
  (shards.map fun sh => (finiteOf sh).foldl (push_low L) []).foldl
    (fun g l => l.foldl (push_low L) g) []

/-- The merged global high heap (same shape via `push_high`). -/
def mergedHighs (L : ℕ) (shards : List (List (Option ℚ))) : List ℚ :=
  (shards.map fun sh => (finiteOf sh).foldl (push_high L) []).foldl
    (fun g l => l.foldl (push_high L) g) []

/-- `N_finite` as the worker loop actually accumulates it, for the
deterministic single-worker schedule (`workers=1`; scheduling is
otherwise a nondeterministic shard partition).  The worker-local `locN`
is declared once per worker and is *not* reset after the per-shard
merge `N_finite += locN`, while the local heaps *are* drained there, so
`locN` carries the running total of all previous shards into every
later merge.  State: `(locN, N_finite)`. -/
def tq_N (shards : List (List (Option ℚ))) : ℕ :=
  (shards.foldl
    (fun st sh =>
      let locN := st.1 + (finiteOf sh).length
      (locN, st.2 + locN))
    ((0 : ℕ), (0 : ℕ))).2

/-- `Pipeline::tail_quantiles_parallel` (the heap capacity `L`, fixed to
`200'000` in the source with a "adjust if you like" note, is kept as a
parameter): per-shard bounded heaps, single merge, rank selection with
clamping.  Returns `(cut_lo, cut_hi)`; `none` encodes NaN. -/
def tail_quantiles (L : ℕ) (q_lo q_hi : ℚ) (shards : List (List (Option ℚ))) :
    Option ℚ × Option ℚ :=
  let lows := mergedLows L shards
  let highs := mergedHighs L shards
  let N := tq_N shards
  if N = 0 then (none, none)
  else
    let r_lo := (Int.floor (q_lo * N)).toNat
    let r_hi := (Int.floor (q_hi * N)).toNat
    let idx_lo := if r_lo < lows.length then r_lo
                  else if lows.isEmpty then 0 else lows.length - 1
    let base := if highs.length < N then N - highs.length else 0
    let idx_hi := if r_hi ≤ base then 0 else min (r_hi - base) (highs.length - 1)
    (lows.get? idx_lo, highs.get? idx_hi)

/-! ## Stage C: spike denoiser (`build_events`' sibling tool: the filter
loop of the denoiser `main`) -/

/-- `MID_MAX` (delete rows with `mid > MID_MAX`). -/
def MID_MAX : ℚ := 1000

/-- `MAX_EXAMPLES`. -/
def MAX_EXAMPLES : ℕ := 10

/-- One input row; the denoiser drops rows whose `ts` or `mid` is null. -/
structure DenoRow where
  ts : Option ℕ
  mid : Option ℚ
deriving DecidableEq

/-- `struct SpikeExample`. -/
structure SpikeExample where
  day : ℕ
  ts_prev : ℕ
  ts_curr : ℕ
  mid_prev : ℚ
  mid_curr : ℚ
  delta : ℚ
deriving DecidableEq

/-- The denoiser loop state: `(last_day, last_ts, last_mid, have_last)`
baseline, removal-reason counters, retained spike examples, and the
kept `(ts, mid)` rows (the per-day report maps and grand totals are
reporting only and not modelled). -/
structure DenoState where
  last_day : ℕ := 0
  last_ts : ℕ := 0
  last_mid : ℚ := 0
  have_last : Bool := false
  removed_by_delta : ℕ := 0
  removed_by_level : ℕ := 0
  delta_examples : List SpikeExample := []
  kept : List (ℕ × ℚ) := []
deriving DecidableEq

/-- One row of the denoiser filter loop (level-then-delta rules,
baseline only advanced by kept rows). -/
def denoStep (threshold : ℚ) (st : DenoState) (row : DenoRow) : DenoState :=
  match row.ts, row.mid with
  | some ts, some mid =>
    let day := day_from_ts ts
    if ¬ st.have_last ∨ day ≠ st.last_day then
      -- New day or no baseline yet: only the level filter applies.
      if mid > MID_MAX then
        { st with removed_by_level := st.removed_by_level + 1, have_last := false }
      else
        { st with
          kept := st.kept ++ [(ts, mid)],
          last_day := day, last_mid := mid, last_ts := ts, have_last := true }
    else
      let delta := |mid - st.last_mid|
      if delta ≥ threshold then
        { st with
          removed_by_delta := st.removed_by_delta + 1,
          delta_examples :=
            if st.delta_examples.length < MAX_EXAMPLES then
              st.delta_examples ++ [⟨day, st.last_ts, ts, st.last_mid, mid, delta⟩]
            else st.delta_examples }
      else if mid > MID_MAX then
        { st with removed_by_level := st.removed_by_level + 1 }
      else
        { st with
          kept := st.kept ++ [(ts, mid)],
          last_mid := mid, last_ts := ts, last_day := day }
  | _, _ => st

/-- The denoiser applied to a whole stream. -/
def runDenoiser (threshold : ℚ) (rows : List DenoRow) : DenoState :=
  rows.foldl (denoStep threshold) {}

/-! ## Stage D: event and feature builder (`EventTableBuilder`) -/

/-- One cleaned tick row as read by the builder (rows with a null
required field are dropped at the top of `process_row`; the embedding
takes the non-null rows, with the nullable `log_return` as an
`Option`). -/
structure TickRowE where
  ts : ℕ
  mid : ℚ
  lr : Option ℚ
  bid_size : ℚ
  ask_size : ℚ
  spread : ℚ
  bid : ℚ
  ask : ℚ
deriving DecidableEq

/-- `nbbo::LabeledEvent`. -/
structure LabeledEvent where
  ts : ℕ := 0
  day : ℕ := 0
  mid : ℚ := 0
  mid_next : ℚ := 0
  spread : ℚ := 0
  imbalance : ℚ := 0
  age_diff_ms : ℚ := 0
  last_move : ℚ := 0
  y : ℚ := 0
  tau_ms : ℚ := 0
deriving DecidableEq

instance : Inhabited LabeledEvent := ⟨{}⟩

/-- `EventTableBuilder`'s per-day state, pending event and counters. -/
structure EvState where
  curr_day : ℕ := 0
  have_day : Bool := false
  last_bid_price : ℚ := 0
  last_ask_price : ℚ := 0
  bid_origin_ms : ℤ := 0
  ask_origin_ms : ℤ := 0
  age_bid_ms : ℤ := 0
  age_ask_ms : ℤ := 0
  last_move_sign : ℚ := 0
  prev_event : LabeledEvent := {}
  have_prev_event : Bool := false
  events_detected : ℕ := 0
  events_written : ℕ := 0
  events_dropped_bigmove : ℕ := 0
  events_dropped_boundary : ℕ := 0
  out : List LabeledEvent := []

/-- `EventTableBuilder::start_new_day`. -/
def start_new_day (st : EvState) (day : ℕ) (ts : ℕ) (bid ask : ℚ) : EvState :=
  let ms : ℤ := (ms_since_midnight ts : ℤ)
  { st with
    curr_day := day, have_day := true,
    last_bid_price := bid, last_ask_price := ask,
    bid_origin_ms := ms, ask_origin_ms := ms, last_move_sign := 0,
    events_dropped_boundary :=
      st.events_dropped_boundary + (if st.have_prev_event then 1 else 0),
    have_prev_event := false }

/-- `EventTableBuilder::update_quote_ages`. -/
def update_quote_ages (st : EvState) (ms : ℤ) (bid ask : ℚ) : EvState :=
  let st1 := if bid ≠ st.last_bid_price then
               { st with last_bid_price := bid, bid_origin_ms := ms } else st
  let st2 := if ask ≠ st1.last_ask_price then
               { st1 with last_ask_price := ask, ask_origin_ms := ms } else st1
  { st2 with age_bid_ms := ms - st2.bid_origin_ms, age_ask_ms := ms - st2.ask_origin_ms }

/-- `EventTableBuilder::compute_imbalance`. -/
def compute_imbalance (bid_sz ask_sz : ℚ) : ℚ :=
  let denom := bid_sz + ask_sz
  if denom = 0 then 0 else (bid_sz - ask_sz) / denom

/-- `EventTableBuilder::label_and_emit_prev`. -/
def label_and_emit_prev (threshold_next : ℚ) (st : EvState)
    (event : LabeledEvent) (ms_curr : ℤ) : EvState :=
  if ¬ st.have_prev_event ∨ st.prev_event.day ≠ event.day then st
  else
    let dmid := event.mid - st.prev_event.mid
    if |dmid| ≤ threshold_next then
      let ms_prev : ℤ := (ms_since_midnight st.prev_event.ts : ℤ)
      let labeled := { st.prev_event with
        mid_next := event.mid,
        y := if dmid > 0 then 1 else if dmid < 0 then -1 else 0,
        tau_ms := ((ms_curr - ms_prev : ℤ) : ℚ) }
      { st with out := st.out ++ [labeled], events_written := st.events_written + 1 }
    else
      { st with events_dropped_bigmove := st.events_dropped_bigmove + 1 }

/-- `EventTableBuilder::process_row`. -/
def process_row (threshold_next : ℚ) (st : EvState) (r : TickRowE) : EvState :=
  let day := day_from_ts r.ts
  let ms : ℤ := (ms_since_midnight r.ts : ℤ)
  let st1 := if ¬ st.have_day ∨ day ≠ st.curr_day then
               start_new_day st day r.ts r.bid r.ask else st
  let st2 := update_quote_ages st1 ms r.bid r.ask
  let imbalance := compute_imbalance r.bid_size r.ask_size
  let age_diff_ms : ℚ := ((st2.age_bid_ms - st2.age_ask_ms : ℤ) : ℚ)
  match r.lr with
  | none => st2
  | some lr =>
    if lr = 0 then st2
    else
      let st3 := { st2 with events_detected := st2.events_detected + 1 }
      let event : LabeledEvent :=
        { ts := r.ts, day := day, mid := r.mid, spread := r.spread,
          imbalance := imbalance, age_diff_ms := age_diff_ms,
          last_move := st3.last_move_sign }
      let st4 := label_and_emit_prev threshold_next st3 event ms
      { st4 with
        last_move_sign := if lr > 0 then 1 else -1,
        prev_event := event, have_prev_event := true }

/-- `EventTableBuilder::finish_day`. -/
def finish_day (st : EvState) : EvState :=
  if st.have_prev_event then
    { st with
      events_dropped_boundary := st.events_dropped_boundary + 1,
      have_prev_event := false }
  else st

/-- `EventTableBuilder::run` restricted to its processing core. -/
def buildEvents (threshold_next : ℚ) (rows : List TickRowE) : EvState :=
  finish_day (rows.foldl (process_row threshold_next) {})

/-! ## Stage E: histogram model (histogram_model.cpp)

The binning functions are total on IEEE doubles, NaN and infinities
included; the value domain is embedded as `FVal` with the C comparison
semantics (every comparison against NaN is false). -/

/-- An IEEE double: NaN, the two infinities, or a finite value. -/
inductive FVal
  | nan
  | pinf
  | ninf
  | fin (q : ℚ)
deriving DecidableEq

/-- C `<` on doubles. -/
def FVal.lt : FVal → FVal → Bool
  | .nan, _ => false
  | _, .nan => false
  | .ninf, .ninf => false
  | .ninf, _ => true
  | .pinf, _ => false
  | .fin _, .pinf => true
  | .fin _, .ninf => false
  | .fin a, .fin b => decide (a < b)

/-- C `<=` on doubles. -/
def FVal.le : FVal → FVal → Bool
  | .nan, _ => false
  | _, .nan => false
  | .ninf, _ => true
  | .pinf, .pinf => true
  | .pinf, _ => false
  | .fin _, .pinf => true
  | .fin _, .ninf => false
  | .fin a, .fin b => decide (a ≤ b)

/-- C `>` on doubles. -/
def FVal.gt (a b : FVal) : Bool := FVal.lt b a

/-- `std::isfinite`. -/
def FVal.isfinite : FVal → Bool
  | .fin _ => true
  | _ => false

/-- `std::llround`: round half away from zero (the further
`static_cast<int>` of the source is value-preserving on every value
this pipeline can produce and is modelled as the identity on ℤ). -/
def llround (x : ℚ) : ℤ :=
  if x < 0 then -(Int.floor (-x + 1/2)) else Int.floor (x + 1/2)

/-- `HistogramModel::N_IMB` etc. -/
def N_IMB : ℤ := 6
def N_SPR : ℤ := 3
def N_AGE : ℤ := 5
def N_LAST : ℤ := 3
def N_CELLS : ℤ := N_IMB * N_SPR * N_AGE * N_LAST

/-- `HistogramModel::imb_bin` (defensive clamp, then half-open bins). -/
def imb_bin (I0 : FVal) : ℤ :=
  let I1 := if FVal.lt I0 (.fin (-1)) then .fin (-1) else I0
  let I := if FVal.gt I1 (.fin 1) then .fin 1 else I1
  if FVal.lt I (.fin (-0.7)) then 0
  else if FVal.lt I (.fin (-0.3)) then 1
  else if FVal.lt I (.fin (-0.1)) then 2
  else if FVal.le I (.fin 0.1) then 3
  else if FVal.le I (.fin 0.3) then 4
  else 5

/-- `HistogramModel::spr_bin` (tick count `k = llround(spread/0.01)`;
non-positive or non-finite spreads map to bin 0). -/
def spr_bin (spread : FVal) : ℤ :=
  if FVal.le spread (.fin 0) ∨ ¬ spread.isfinite then 0
  else
    match spread with
    | .fin q =>
      let k := llround (q / 0.01)
      if k ≤ 1 then 0 else if k = 2 then 1 else 2
    | _ => 0

/-- `HistogramModel::age_bin`. -/
def age_bin (age_diff_ms : FVal) : ℤ :=
  if FVal.lt age_diff_ms (.fin (-200)) then 0
  else if FVal.lt age_diff_ms (.fin (-50)) then 1
  else if FVal.le age_diff_ms (.fin 50) then 2
  else if FVal.le age_diff_ms (.fin 200) then 3
  else 4

/-- `HistogramModel::last_bin`. -/
def last_bin (L : FVal) : ℤ :=
  if FVal.lt L (.fin (-0.5)) then 0
  else if FVal.gt L (.fin 0.5) then 2
  else 1

/-- `HistogramModel::cell_index` (linear 4-D index). -/
def cell_index (I s age_diff_ms L : FVal) : ℤ :=
  ((imb_bin I * N_SPR + spr_bin s) * N_AGE + age_bin age_diff_ms) * N_LAST + last_bin L

/-- `struct CellStats`. -/
structure CellStats where
  n : ℕ := 0
  n_up : ℕ := 0
  n_down : ℕ := 0
  sum_tau_ms : ℚ := 0
deriving DecidableEq

/-- `struct TickState` (finite feature values as read from an event). -/
structure TickState where
  imbalance : ℚ
  spread : ℚ
  age_diff_ms : ℚ
  last_move : ℚ
deriving DecidableEq

/-- `cell_index(const TickState&)`. -/
def cell_index_state (x : TickState) : ℤ :=
  cell_index (.fin x.imbalance) (.fin x.spread) (.fin x.age_diff_ms) (.fin x.last_move)

/-- `struct HistogramModel`: the cell array (total map over indices;
the safety theorem shows every computed index hits `[0, N_CELLS)`)
plus the smoothing constant. -/
structure HistogramModel where
  cells : ℤ → CellStats
  alpha : ℚ := 1

/-- `HistogramModel::p_up` (Laplace smoothing with empty-cell
fallback 0.5; `n_tot` is a finite count so the source's
`!isfinite(n_tot)` disjunct cannot fire). -/
def HistogramModel.p_up (m : HistogramModel) (k : ℤ) : ℚ :=
  let c := m.cells k
  let n_up : ℚ := (c.n_up : ℚ)
  let n_down : ℚ := (c.n_down : ℚ)
  let n_tot := n_up + n_down
  if n_tot ≤ 0 then 0.5
  else (n_up + m.alpha) / (n_tot + 2 * m.alpha)

/-- `HistogramModel::p_down`. -/
def HistogramModel.p_down (m : HistogramModel) (k : ℤ) : ℚ := 1 - m.p_up k

/-- `HistogramModel::direction_score`. -/
def HistogramModel.direction_score (m : HistogramModel) (k : ℤ) : ℚ := 2 * m.p_up k - 1

/-- `HistogramModel::mean_tau_ms` (`none` encodes the NaN returned on
an empty cell). -/
def HistogramModel.mean_tau_ms (m : HistogramModel) (k : ℤ) : Option ℚ :=
  let c := m.cells k
  if c.n = 0 then none else some (c.sum_tau_ms / (c.n : ℚ))

/-! ## Stage F: backtester (backtester.cpp) and PnL aggregator
(pnl_aggregator.cpp) -/

/-- `EdgeMode`. -/
inductive EdgeMode
  | Legacy
  | CostTradeAll
  | CostWithGate
deriving DecidableEq

/-- `StrategyConfig` (defaults of the strategy config loader). -/
structure StrategyConfig where
  fee_price : ℚ := 0.03
  slip_price : ℚ := 0.02
  min_abs_direction_score : ℚ := 0
  min_expected_edge_bps : ℚ := 0
  max_mean_wait_ms : ℚ := 0
  edge_mode : EdgeMode := .CostWithGate
deriving DecidableEq

/-- `struct TradeRecord`. -/
structure TradeRecord where
  ts_in : ℕ := 0
  ts_out : ℕ := 0
  day : ℕ := 0
  mid_in : ℚ := 0
  mid_out : ℚ := 0
  spread_in : ℚ := 0
  direction_score : ℚ := 0
  expected_edge_ret : ℚ := 0
  cost_ret : ℚ := 0
  gross_ret : ℚ := 0
  net_ret : ℚ := 0
  side : ℤ := 0
deriving DecidableEq

/-- `mean_tau > cfg_.max_mean_wait_ms` with a NaN mean never exceeding
the bound (C comparisons against NaN are false). -/
def meanGt (o : Option ℚ) (bound : ℚ) : Bool :=
  match o with
  | none => false
  | some mt => decide (mt > bound)

/-- `Backtester::ProcessEvent`: decide whether to open a one-step trade
for `ev`, labelled by `next_event`; `none` means no trade. -/
def ProcessEvent (hist : HistogramModel) (cfg : StrategyConfig)
    (ev : LabeledEvent) (next_event : Option LabeledEvent) : Option TradeRecord :=
  match next_event with
  | none => none
  | some nxt =>
    if ev.mid ≤ 0 ∨ ev.spread ≤ 0 then none
    else
      let state : TickState :=
        { imbalance := ev.imbalance, spread := ev.spread,
          age_diff_ms := ev.age_diff_ms, last_move := ev.last_move }
      let direction_score := hist.direction_score (cell_index_state state)
      if cfg.min_abs_direction_score > 0 ∧ |direction_score| < cfg.min_abs_direction_score
      then none
      else
        let delta_m := 0.5 * ev.spread
        let expected_edge_ret := direction_score * (delta_m / ev.mid)
        let c_fee := 2 * cfg.fee_price / ev.mid
        let c_slip := cfg.slip_price / ev.mid
        let costs_on := ev.spread / ev.mid + c_fee + c_slip
        -- The edge-mode switch: `some cost_ret` when the trade survives.
        let gate : Option ℚ :=
          match cfg.edge_mode with
          | .Legacy => if expected_edge_ret ≤ 0 then none else some 0
          | .CostTradeAll => some costs_on
          | .CostWithGate =>
            if cfg.min_expected_edge_bps > 0 then
              let margin_ret := cfg.min_expected_edge_bps * (1 / 10000)
              let cost_ret_gate := c_fee + c_slip
              if |expected_edge_ret| ≤ cost_ret_gate + margin_ret then none
              else some costs_on
            else some costs_on
        match gate with
        | none => none
        | some cost_ret =>
          if cfg.max_mean_wait_ms > 0 ∧
             meanGt (hist.mean_tau_ms (cell_index_state state)) cfg.max_mean_wait_ms
          then none
          else
            let side : ℤ := if direction_score > 0 then 1 else -1
            let gross_ret := (side : ℚ) * ((nxt.mid - ev.mid) / ev.mid)
            let net_ret := gross_ret - cost_ret
            some { ts_in := ev.ts, ts_out := nxt.ts, day := ev.day,
                   mid_in := ev.mid, mid_out := nxt.mid, spread_in := ev.spread,
                   direction_score := direction_score,
                   expected_edge_ret := expected_edge_ret,
                   cost_ret := cost_ret, gross_ret := gross_ret,
                   net_ret := net_ret, side := side }

/-- `struct DailyPnlRow`. -/
structure DailyPnlRow where
  day : ℕ := 0
  num_trades : ℕ := 0
  gross_ret_sum : ℚ := 0
  net_ret_sum : ℚ := 0
  gross_ret_mean : ℚ := 0
  net_ret_mean : ℚ := 0
  cumulative_net_ret : ℚ := 0
deriving DecidableEq

/-- `PnLAggregator`'s state after `StartYear` (all fields cleared). -/
structure PnLState where
  trades : List TradeRecord := []
  daily_rows : List DailyPnlRow := []
  current_day : ℕ := 0
  day_trade_count : ℕ := 0
  day_gross_sum : ℚ := 0
  day_net_sum : ℚ := 0
  cumulative_net : ℚ := 0

/-- `PnLAggregator::FlushCurrentDay`. -/
def FlushCurrentDay (st : PnLState) : PnLState :=
  if st.current_day = 0 ∨ st.day_trade_count = 0 then st
  else
    let row : DailyPnlRow :=
      { day := st.current_day, num_trades := st.day_trade_count,
        gross_ret_sum := st.day_gross_sum, net_ret_sum := st.day_net_sum,
        gross_ret_mean := st.day_gross_sum / (st.day_trade_count : ℚ),
        net_ret_mean := st.day_net_sum / (st.day_trade_count : ℚ),
        cumulative_net_ret := st.cumulative_net }
    { st with
      daily_rows := st.daily_rows ++ [row],
      day_trade_count := 0, day_gross_sum := 0, day_net_sum := 0 }

/-- `PnLAggregator::OnTrade`. -/
def OnTrade (st : PnLState) (t : TradeRecord) : PnLState :=
  if t.day = 0 then st
  else
    let st1 :=
      if st.current_day = 0 then { st with current_day := t.day }
      else if t.day ≠ st.current_day then
        { FlushCurrentDay st with current_day := t.day }
      else st
    { st1 with
      trades := st1.trades ++ [t],
      day_trade_count := st1.day_trade_count + 1,
      day_gross_sum := st1.day_gross_sum + t.gross_ret,
      day_net_sum := st1.day_net_sum + t.net_ret,
      cumulative_net := st1.cumulative_net + t.net_ret }

/-- `PnLAggregator::FinalizeYear` restricted to its aggregation effect
(the CSV writers are I/O only). -/
def FinalizeYear (st : PnLState) : PnLState := FlushCurrentDay st

/-- A full year: `StartYear`, the trade stream, `FinalizeYear`. -/
def runPnl (trades : List TradeRecord) : PnLState :=
  FinalizeYear (trades.foldl OnTrade {})

/-! ## Concrete streams used by the scenario claims -/

/-- Event-grid settings (defaults). -/
def S_event : Settings := {}

/-- Clock-grid settings with bounded forward-fill
(`--clock --ffill`, default `max_ffill_gap_ms = 250`). -/
def S_clock : Settings := { clock_grid := true, ffill := true }

/-- First S1 raw quote: `20200102,09:30:00.000,P,100.01,5,100.02,7,R`. -/
def s1_quote1 : RawQuote :=
  { date := 20200102, h := 9, m := 30, s := 0, msec := 0, ex := 'P',
    bid := 100.01, ask := 100.02, bidSize := 5, askSize := 7, qc := ['R'] }

/-- Second S1 raw quote: `20200102,09:30:00.000,P,100.00,10,100.03,4,R`. -/
def s1_quote2 : RawQuote :=
  { s1_quote1 with bid := 100.00, ask := 100.03, bidSize := 10, askSize := 4 }

/-- Two same-day quotes, one ms-bucket each, separated by a gap of
`252 − 0 − 1 = 251 > 250` milliseconds. -/
def c1_input : List RawQuote :=
  [{ s1_quote1 with bid := 100, ask := 100.02 },
   { s1_quote1 with msec := 252, bid := 100.01, ask := 100.03 }]

/-- A concrete stand-in for `std::log(mid/prev)` used when a pipeline
run must be evaluated in full (the emission structure is independent of
the log's values). -/
def logDemo : ℚ → ℚ → ℚ := fun m p => m / p

/-- C1.  Clock grid with bounded forward-fill, gap `G = 251` with
`max_ffill_gap_ms = 250`: the code emits no fill Ticks — but the next
real Tick's `log_return` is *finite* (`log(100.02/100.01)`, here the
stand-in value `10002/10001`), not null.  The `have_prev = false` reset
on the large-gap branch is unconditionally overwritten by
`have_prev = true` at the end of the same emission, so the claimed reset
never becomes observable. -/
theorem c1_large_gap_keeps_finite_logret :
    (processFile S_clock logDemo c1_input).map Row.logret
      = [none, some (10002/10001)] := by
  decide

/-- The S3 day stream: mids `[50, 1200, 80, 100, 250]` at successive
same-day millisecond timestamps. -/
def s3_rows : List DenoRow :=
  [⟨some 20200102093000000, some 50⟩,
   ⟨some 20200102093000001, some 1200⟩,
   ⟨some 20200102093000002, some 80⟩,
   ⟨some 20200102093000003, some 100⟩,
   ⟨some 20200102093000004, some 250⟩]

/-- C4 counterexample.  On the S3 stream the 1200 tick is *not* removed
by the level filter: the same-day branch tests the delta rule first and
`Δ = |1200 − 50| = 1150 ≥ 100` fires, so `removed_by_level` stays `0`,
both removals are by delta, and the retained spike example for the
1200 tick records the delta-rule pair `(50, 1200)`. -/
theorem c4_level_attribution_refuted :
    (runDenoiser 100 s3_rows).removed_by_level = 0 ∧
    (runDenoiser 100 s3_rows).removed_by_delta = 2 ∧
    (runDenoiser 100 s3_rows).delta_examples =
      [⟨20200102, 20200102093000000, 20200102093000001, 50, 1200, 1150⟩,
       ⟨20200102, 20200102093000003, 20200102093000004, 100, 250, 150⟩] := by
  decide

/-- C4 (amended).  On the S3 stream the denoiser keeps exactly
`[50, 80, 100]`; the 1200 tick is removed by the delta rule
(`Δ = 1150 ≥ 100`, checked before the level filter on a same-day tick),
the 250 tick is removed by the delta rule (`Δ = 150 ≥ 100`), removed
ticks never advance the baseline, and the baseline after the stream is
`(ts_of_100, 100)`. -/
theorem c4_s3_denoiser_trace :
    (runDenoiser 100 s3_rows).kept =
      [(20200102093000000, 50), (20200102093000002, 80), (20200102093000003, 100)] ∧
    (runDenoiser 100 s3_rows).removed_by_delta = 2 ∧
    (runDenoiser 100 s3_rows).removed_by_level = 0 ∧
    (runDenoiser 100 s3_rows).last_ts = 20200102093000003 ∧
    (runDenoiser 100 s3_rows).last_mid = 100 ∧
    (runDenoiser 100 s3_rows).have_last = true := by
  decide

/-- The S6 histogram model: the cell hit by the S6 event
(`imbalance = 0 → bin 3`, `spread = 0.02 → bin 1`, `age_diff = 0 → bin 2`,
`last_move = 0 → bin 1`, so `k = ((3·3+1)·5+2)·3+1 = 157`) holds
`n_up = 6, n_down = 2`, giving `p_up = 7/10` and `D = +0.4` at `α = 1`. -/
def s6_model : HistogramModel :=
  { cells := fun k => if k = 157 then { n := 8, n_up := 6, n_down := 2 } else {} }

/-- The S6 entry event: `mid = 100`, `spread = 0.02`. -/
def s6_event : LabeledEvent := { ts := 1, day := 20200102, mid := 100, spread := 0.02 }

/-- The S6 labelling event: `mid_next = 100.01`. -/
def s6_next : LabeledEvent := { ts := 2, day := 20200102, mid := 100.01 }

/-- Legacy-mode strategy config of S6. -/
def s6_cfg_legacy : StrategyConfig := { edge_mode := .Legacy, min_expected_edge_bps := 1 }

/-- CostWithGate strategy config of S6 (`fee = 0.03`, `slip = 0.02`,
`min_expected_edge_bps = 1`). -/
def s6_cfg_gate : StrategyConfig := { edge_mode := .CostWithGate, min_expected_edge_bps := 1 }

/-- A CostWithGate config tuned so that the gate threshold equals
`|EE| = 4·10⁻⁵` exactly (`fee = slip = 0`, `0.4` bps margin). -/
def s6_cfg_gate_eq : StrategyConfig :=
  { edge_mode := .CostWithGate, fee_price := 0, slip_price := 0,
    min_expected_edge_bps := 0.4 }

/-- C7.  With `D = +0.4`, `mid = 100`, `spread = 0.02`,
`next.mid = 100.01`: Legacy mode opens the trade with
`expected_edge_ret = 4·10⁻⁵ > 0`, `gross_ret = 10⁻⁴` and `cost_ret = 0`;
CostWithGate mode (fee 0.03, slip 0.02, 1 bps) skips it because
`|EE| = 4·10⁻⁵` does not exceed
`(2·0.03 + 0.02)/100 + 1·10⁻⁴ = 9·10⁻⁴`; and the gate also skips at
exact equality of `|EE|` with the threshold. -/
theorem c7_legacy_trades_gate_skips :
    (ProcessEvent s6_model s6_cfg_legacy s6_event (some s6_next)).map
        (fun t => (t.direction_score, t.expected_edge_ret, t.gross_ret, t.cost_ret))
      = some (0.4, 4/100000, 1/10000, 0) ∧
    ProcessEvent s6_model s6_cfg_gate s6_event (some s6_next) = none ∧
    ProcessEvent s6_model s6_cfg_gate_eq s6_event (some s6_next) = none := by
  decide

/-- The S5 cell statistics: `n_up = 3, n_down = 1, sum_tau_ms = 40`
(so `n = 4` mid-change events landed in the cell). -/
def s5_model : HistogramModel :=
  { cells := fun _ => { n := 4, n_up := 3, n_down := 1, sum_tau_ms := 40 } }

/-- C8.  For every cell of the histogram model,
`p_up = (n_up + α)/(n_up + n_down + 2α)` when `n_up + n_down > 0` and
`0.5` otherwise, `p_down = 1 − p_up` and `D = 2·p_up − 1`; and on the
S5 cell (`n_up = 3, n_down = 1, sum_tau_ms = 40, α = 1`) the model
yields `p_up = 4/6`, `D = 1/3` and `mean_tau_ms = 10`. -/
theorem c8_cell_quantities (m : HistogramModel) (k : ℤ) :
    (0 < (m.cells k).n_up + (m.cells k).n_down →
      m.p_up k = (((m.cells k).n_up : ℚ) + m.alpha) /
        ((((m.cells k).n_up : ℚ) + ((m.cells k).n_down : ℚ)) + 2 * m.alpha)) ∧
    ((m.cells k).n_up + (m.cells k).n_down = 0 → m.p_up k = 0.5) ∧
    m.p_down k = 1 - m.p_up k ∧
    m.direction_score k = 2 * m.p_up k - 1 ∧
    s5_model.p_up 0 = 4/6 ∧
    s5_model.direction_score 0 = 1/3 ∧
    s5_model.mean_tau_ms 0 = some 10 := by
  refine ⟨?_, ?_, rfl, rfl, by decide, by decide, by decide⟩
  · intro hpos
    have hpos' : (0 : ℚ) < ((m.cells k).n_up : ℚ) + ((m.cells k).n_down : ℚ) := by
      exact_mod_cast hpos
    simp [HistogramModel.p_up, not_le.mpr hpos']
  · intro hzero
    have h0 : ((m.cells k).n_up : ℚ) + ((m.cells k).n_down : ℚ) = 0 := by
      exact_mod_cast hzero
    simp [HistogramModel.p_up, h0]

/-- C8 witness: the S5 cell instantiates both branches' hypotheses. -/
theorem c8_cell_quantities_witness :
    s5_model.p_up 0 = ((3 : ℚ) + 1) / (((3 : ℚ) + 1) + 2 * 1) ∧
    s5_model.p_down 0 = 1 - s5_model.p_up 0 := by
  refine ⟨?_, (c8_cell_quantities s5_model 0).2.2.1⟩
  have h := (c8_cell_quantities s5_model 0).1 (by decide)
  simpa [s5_model] using h

/-! ## C10: total safety of the histogram binning -/

theorem imb_bin_bounds (I : FVal) : 0 ≤ imb_bin I ∧ imb_bin I ≤ 5 := by
  simp only [imb_bin]
  split_ifs <;> norm_num

theorem spr_bin_bounds (s : FVal) : 0 ≤ spr_bin s ∧ spr_bin s ≤ 2 := by
  cases s <;> simp only [spr_bin] <;> split_ifs <;> norm_num

theorem age_bin_bounds (a : FVal) : 0 ≤ age_bin a ∧ age_bin a ≤ 4 := by
  simp only [age_bin]
  split_ifs <;> norm_num

theorem last_bin_bounds (L : FVal) : 0 ≤ last_bin L ∧ last_bin L ≤ 2 := by
  simp only [last_bin]
  split_ifs <;> norm_num

/-- C10.  For every double-valued input — NaN, infinite and
out-of-range values included — `cell_index` lands in `[0, 270)`, so
every histogram lookup and accumulation step indexes the 270-cell array
in bounds and an out-of-range cell index is impossible. -/
theorem c10_cell_index_in_range (I s a L : FVal) :
    0 ≤ cell_index I s a L ∧ cell_index I s a L < 270 := by
  obtain ⟨h1, h2⟩ := imb_bin_bounds I
  obtain ⟨h3, h4⟩ := spr_bin_bounds s
  obtain ⟨h5, h6⟩ := age_bin_bounds a
  obtain ⟨h7, h8⟩ := last_bin_bounds L
  unfold cell_index N_SPR N_AGE N_LAST
  omega

/-! ## C9: per-ms NBBO reduction -/

/-- The quotes of a bucket that `NBBOBucket::upd` accepts (positive
prices, not locked/crossed). -/
def acceptedQuotes (qs : List Quote) : List Quote :=
  qs.filter fun q => decide (0 < q.bid ∧ 0 < q.ask ∧ q.bid < q.ask)

/-- Folding a quote list into a fresh bucket keyed by `t`. -/
def bucketFold (t : ℕ) (qs : List Quote) : NBBOBucket :=
  qs.foldl (fun b q => (b.upd q).1) (NBBOBucket.reset t)

theorem upd_rejected (b : NBBOBucket) (q : Quote)
    (h : ¬ (0 < q.bid ∧ 0 < q.ask ∧ q.bid < q.ask)) : (b.upd q).1 = b := by
  unfold NBBOBucket.upd
  by_cases h1 : q.bid ≤ 0 ∨ q.ask ≤ 0
  · simp [h1]
  · push_neg at h1
    have h2 : q.ask ≤ q.bid := by
      rcases lt_or_le q.bid q.ask with hlt | hle
      · exact absurd ⟨h1.1, h1.2, hlt⟩ h
      · exact hle
    simp [h2, not_or.mpr ⟨not_le.mpr h1.1, not_le.mpr h1.2⟩]

theorem upd_bestBid_mono (b : NBBOBucket) (q : Quote) :
    b.bestBid ≤ ((b.upd q).1).bestBid := by
  unfold NBBOBucket.upd
  split_ifs <;> simp_all [ltInf] <;> split <;> simp_all <;> linarith

theorem upd_bid_le (b : NBBOBucket) (q : Quote)
    (h : 0 < q.bid ∧ 0 < q.ask ∧ q.bid < q.ask) : q.bid ≤ ((b.upd q).1).bestBid := by
  unfold NBBOBucket.upd
  have h1 : ¬ (q.bid ≤ 0 ∨ q.ask ≤ 0) := by push_neg; exact ⟨h.1, h.2.1⟩
  have h2 : ¬ (q.ask ≤ q.bid) := not_le.mpr h.2.2
  simp only [h1, h2, if_false]
  by_cases hb : q.bid > b.bestBid
  · simp only [hb, if_true]
    split <;> simp
  · simp only [hb, if_false]
    push_neg at hb
    split <;> simpa

theorem upd_bestAsk_mono (b : NBBOBucket) (q : Quote) (a : ℚ)
    (h : b.bestAsk = some a) :
    ∃ a', ((b.upd q).1).bestAsk = some a' ∧ a' ≤ a := by
  by_cases h1 : q.bid ≤ 0 ∨ q.ask ≤ 0
  · exact ⟨a, by simp [NBBOBucket.upd, h1, h], le_refl a⟩
  · by_cases h2 : q.ask ≤ q.bid
    · exact ⟨a, by simp [NBBOBucket.upd, h1, h2, h], le_refl a⟩
    · by_cases h3 : q.ask < a
      · refine ⟨q.ask, ?_, le_of_lt h3⟩
        by_cases hb : b.bestBid < q.bid <;>
          simp [NBBOBucket.upd, h1, h2, h, ltInf, hb, h3]
      · refine ⟨a, ?_, le_refl a⟩
        by_cases hb : b.bestBid < q.bid <;>
          simp [NBBOBucket.upd, h1, h2, h, ltInf, hb, h3]

theorem upd_ask_le (b : NBBOBucket) (q : Quote)
    (h : 0 < q.bid ∧ 0 < q.ask ∧ q.bid < q.ask) :
    ∃ a', ((b.upd q).1).bestAsk = some a' ∧ a' ≤ q.ask := by
  have h1 : ¬ (q.bid ≤ 0 ∨ q.ask ≤ 0) := by push_neg; exact ⟨h.1, h.2.1⟩
  have h2 : ¬ (q.ask ≤ q.bid) := not_le.mpr h.2.2
  rcases hask : b.bestAsk with _ | a
  · refine ⟨q.ask, ?_, le_refl _⟩
    by_cases hb : b.bestBid < q.bid <;>
      simp [NBBOBucket.upd, h1, h2, ltInf, hb, hask]
  · by_cases h3 : q.ask < a
    · refine ⟨q.ask, ?_, le_refl _⟩
      by_cases hb : b.bestBid < q.bid <;>
        simp [NBBOBucket.upd, h1, h2, ltInf, hb, hask, h3]
    · refine ⟨a, ?_, le_of_not_lt h3⟩
      by_cases hb : b.bestBid < q.bid <;>
        simp [NBBOBucket.upd, h1, h2, ltInf, hb, hask, h3]

theorem upd_ask_isSome (b : NBBOBucket) (q : Quote)
    (h : 0 < q.bid ∧ 0 < q.ask ∧ q.bid < q.ask) :
    (((b.upd q).1).bestAsk).isSome := by
  obtain ⟨a', ha', _⟩ := upd_ask_le b q h
  simp [ha']

theorem upd_ask_isSome_mono (b : NBBOBucket) (q : Quote)
    (h : (b.bestAsk).isSome) : (((b.upd q).1).bestAsk).isSome := by
  rcases hask : b.bestAsk with _ | a
  · rw [hask] at h; simp at h
  · obtain ⟨a', ha', _⟩ := upd_bestAsk_mono b q a hask
    simp [ha']

theorem mem_accepted {q : Quote} {qs : List Quote} (h : q ∈ acceptedQuotes qs) :
    0 < q.bid ∧ 0 < q.ask ∧ q.bid < q.ask := by
  have := (List.mem_filter.mp h).2
  simpa using this

theorem accepted_cons_pos {q0 : Quote} (rest : List Quote)
    (h0 : 0 < q0.bid ∧ 0 < q0.ask ∧ q0.bid < q0.ask) :
    acceptedQuotes (q0 :: rest) = q0 :: acceptedQuotes rest := by
  simp [acceptedQuotes, List.filter_cons, h0]

theorem accepted_cons_neg {q0 : Quote} (rest : List Quote)
    (h0 : ¬ (0 < q0.bid ∧ 0 < q0.ask ∧ q0.bid < q0.ask)) :
    acceptedQuotes (q0 :: rest) = acceptedQuotes rest := by
  simp [acceptedQuotes, List.filter_cons, h0]

theorem foldBid_mono (qs : List Quote) :
    ∀ b : NBBOBucket, b.bestBid ≤ (qs.foldl (fun b q => (b.upd q).1) b).bestBid := by
  induction qs with
  | nil => intro b; simp
  | cons q rest ih =>
    intro b
    exact le_trans (upd_bestBid_mono b q) (ih ((b.upd q).1))

theorem foldAsk_bound (qs : List Quote) :
    ∀ (b : NBBOBucket) (a c : ℚ), b.bestAsk = some a → a ≤ c →
      ∃ a', (qs.foldl (fun b q => (b.upd q).1) b).bestAsk = some a' ∧ a' ≤ c := by
  induction qs with
  | nil => intro b a c h hc; exact ⟨a, by simpa using h, hc⟩
  | cons q rest ih =>
    intro b a c h hc
    obtain ⟨a', ha', hle⟩ := upd_bestAsk_mono b q a h
    exact ih ((b.upd q).1) a' c ha' (le_trans hle hc)

theorem foldAsk_isSome_pres (qs : List Quote) :
    ∀ b : NBBOBucket, (b.bestAsk).isSome →
      ((qs.foldl (fun b q => (b.upd q).1) b).bestAsk).isSome := by
  induction qs with
  | nil => intro b h; simpa using h
  | cons q rest ih =>
    intro b h
    exact ih ((b.upd q).1) (upd_ask_isSome_mono b q h)

theorem fold_bid_le (qs : List Quote) :
    ∀ b : NBBOBucket, ∀ q ∈ acceptedQuotes qs,
      q.bid ≤ (qs.foldl (fun b q => (b.upd q).1) b).bestBid := by
  induction qs with
  | nil => intro b q hq; simp [acceptedQuotes] at hq
  | cons q0 rest ih =>
    intro b q hq
    by_cases h0 : 0 < q0.bid ∧ 0 < q0.ask ∧ q0.bid < q0.ask
    · rw [accepted_cons_pos rest h0] at hq
      rcases List.mem_cons.mp hq with rfl | hmem
      · exact le_trans (upd_bid_le b q h0) (foldBid_mono rest ((b.upd q).1))
      · exact ih ((b.upd q0).1) q hmem
    · rw [accepted_cons_neg rest h0] at hq
      rw [List.foldl_cons, upd_rejected b q0 h0]
      exact ih b q hq

theorem fold_ask_le (qs : List Quote) :
    ∀ b : NBBOBucket, ∀ q ∈ acceptedQuotes qs, ∀ a,
      (qs.foldl (fun b q => (b.upd q).1) b).bestAsk = some a → a ≤ q.ask := by
  induction qs with
  | nil => intro b q hq; simp [acceptedQuotes] at hq
  | cons q0 rest ih =>
    intro b q hq a hfin
    by_cases h0 : 0 < q0.bid ∧ 0 < q0.ask ∧ q0.bid < q0.ask
    · rw [accepted_cons_pos rest h0] at hq
      rcases List.mem_cons.mp hq with rfl | hmem
      · obtain ⟨a', ha', hle⟩ := upd_ask_le b q h0
        obtain ⟨a'', ha'', hle'⟩ := foldAsk_bound rest ((b.upd q).1) a' q.ask ha' hle
        rw [List.foldl_cons] at hfin
        rw [hfin] at ha''
        injection ha'' with heq
        exact heq ▸ hle'
      · rw [List.foldl_cons] at hfin
        exact ih ((b.upd q0).1) q hmem a hfin
    · rw [accepted_cons_neg rest h0] at hq
      rw [List.foldl_cons, upd_rejected b q0 h0] at hfin
      exact ih b q hq a hfin

theorem upd_bid_proj (b : NBBOBucket) (q : Quote)
    (h : 0 < q.bid ∧ 0 < q.ask ∧ q.bid < q.ask) :
    (b.bestBid < q.bid →
      ((b.upd q).1).bestBid = q.bid ∧ ((b.upd q).1).bidSz = q.bidSize) ∧
    (¬ b.bestBid < q.bid →
      ((b.upd q).1).bestBid = b.bestBid ∧ ((b.upd q).1).bidSz = b.bidSz) := by
  have h1 : ¬ (q.bid ≤ 0 ∨ q.ask ≤ 0) := by push_neg; exact ⟨h.1, h.2.1⟩
  have h2 : ¬ (q.ask ≤ q.bid) := not_le.mpr h.2.2
  constructor <;> intro hb <;>
    constructor <;>
    · simp only [NBBOBucket.upd, h1, h2, if_false, gt_iff_lt, hb, if_true]
      split <;> simp

theorem upd_ask_proj (b : NBBOBucket) (q : Quote)
    (h : 0 < q.bid ∧ 0 < q.ask ∧ q.bid < q.ask) :
    (ltInf q.ask b.bestAsk = true →
      ((b.upd q).1).bestAsk = some q.ask ∧ ((b.upd q).1).askSz = q.askSize) ∧
    (ltInf q.ask b.bestAsk = false →
      ((b.upd q).1).bestAsk = b.bestAsk ∧ ((b.upd q).1).askSz = b.askSz) := by
  have h1 : ¬ (q.bid ≤ 0 ∨ q.ask ≤ 0) := by push_neg; exact ⟨h.1, h.2.1⟩
  have h2 : ¬ (q.ask ≤ q.bid) := not_le.mpr h.2.2
  constructor <;> intro hlt <;>
    constructor <;>
    · by_cases hb : b.bestBid < q.bid <;>
        simp only [NBBOBucket.upd, h1, h2, if_false, gt_iff_lt, hb, if_true] <;>
        simp [hlt]

theorem fold_bid_attained (qs : List Quote) :
    ∀ b : NBBOBucket,
      (∃ q ∈ acceptedQuotes qs,
        (qs.foldl (fun b q => (b.upd q).1) b).bestBid = q.bid ∧
        (qs.foldl (fun b q => (b.upd q).1) b).bidSz = q.bidSize) ∨
      ((qs.foldl (fun b q => (b.upd q).1) b).bestBid = b.bestBid ∧
       (qs.foldl (fun b q => (b.upd q).1) b).bidSz = b.bidSz) := by
  induction qs with
  | nil => intro b; right; simp
  | cons q0 rest ih =>
    intro b
    by_cases h0 : 0 < q0.bid ∧ 0 < q0.ask ∧ q0.bid < q0.ask
    · rw [accepted_cons_pos rest h0]
      rcases ih ((b.upd q0).1) with ⟨q, hq, hbid, hsz⟩ | ⟨hbid, hsz⟩
      · left
        exact ⟨q, List.mem_cons_of_mem _ hq, by simpa using hbid, by simpa using hsz⟩
      · by_cases hb : b.bestBid < q0.bid
        · left
          refine ⟨q0, List.mem_cons_self _ _, ?_, ?_⟩
          · rw [List.foldl_cons, hbid, ((upd_bid_proj b q0 h0).1 hb).1]
          · rw [List.foldl_cons, hsz, ((upd_bid_proj b q0 h0).1 hb).2]
        · right
          constructor
          · rw [List.foldl_cons, hbid, ((upd_bid_proj b q0 h0).2 hb).1]
          · rw [List.foldl_cons, hsz, ((upd_bid_proj b q0 h0).2 hb).2]
    · rw [accepted_cons_neg rest h0]
      rw [List.foldl_cons, upd_rejected b q0 h0]
      exact ih b

theorem fold_ask_attained (qs : List Quote) :
    ∀ b : NBBOBucket,
      (∃ q ∈ acceptedQuotes qs,
        (qs.foldl (fun b q => (b.upd q).1) b).bestAsk = some q.ask ∧
        (qs.foldl (fun b q => (b.upd q).1) b).askSz = q.askSize) ∨
      ((qs.foldl (fun b q => (b.upd q).1) b).bestAsk = b.bestAsk ∧
       (qs.foldl (fun b q => (b.upd q).1) b).askSz = b.askSz) := by
  induction qs with
  | nil => intro b; right; simp
  | cons q0 rest ih =>
    intro b
    by_cases h0 : 0 < q0.bid ∧ 0 < q0.ask ∧ q0.bid < q0.ask
    · rw [accepted_cons_pos rest h0]
      rcases ih ((b.upd q0).1) with ⟨q, hq, hask, hsz⟩ | ⟨hask, hsz⟩
      · left
        exact ⟨q, List.mem_cons_of_mem _ hq, by simpa using hask, by simpa using hsz⟩
      · rcases hlt : ltInf q0.ask b.bestAsk with _ | _
        · right
          constructor
          · rw [List.foldl_cons, hask, ((upd_ask_proj b q0 h0).2 hlt).1]
          · rw [List.foldl_cons, hsz, ((upd_ask_proj b q0 h0).2 hlt).2]
        · left
          refine ⟨q0, List.mem_cons_self _ _, ?_, ?_⟩
          · rw [List.foldl_cons, hask, ((upd_ask_proj b q0 h0).1 hlt).1]
          · rw [List.foldl_cons, hsz, ((upd_ask_proj b q0 h0).1 hlt).2]
    · rw [accepted_cons_neg rest h0]
      rw [List.foldl_cons, upd_rejected b q0 h0]
      exact ih b

theorem fold_ask_isSome (qs : List Quote) :
    ∀ b : NBBOBucket, acceptedQuotes qs ≠ [] →
      ((qs.foldl (fun b q => (b.upd q).1) b).bestAsk).isSome := by
  induction qs with
  | nil => intro b h; simp [acceptedQuotes] at h
  | cons q0 rest ih =>
    intro b h
    by_cases h0 : 0 < q0.bid ∧ 0 < q0.ask ∧ q0.bid < q0.ask
    · rw [List.foldl_cons]
      exact foldAsk_isSome_pres rest ((b.upd q0).1) (upd_ask_isSome b q0 h0)
    · rw [accepted_cons_neg rest h0] at h
      rw [List.foldl_cons, upd_rejected b q0 h0]
      exact ih b h

/-- The S1 output Tick: `ts=20200102093000000, bid=100.01, bid_size=5,
ask=100.02, ask_size=7, mid=100.015, spread=0.01, log_return=null`. -/
def s1_row : Row :=
  { ts := 20200102093000000, mid := 100.015, logret := none,
    bidSize := 5, askSize := 7, spread := 0.01, bid := 100.01, ask := 100.02 }

/-- C9.  Within a single ms bucket the aggregator keeps
`best_bid = max` over accepted bids (attained by an accepted quote
whose size is the recorded `bid_size`) and `best_ask = min` over
accepted asks (likewise); and on the two S1 quotes stage A emits
exactly the single Tick `s1_row` (second quote's worse bid/ask leave
the NBBO and the sizes untouched). -/
theorem c9_per_ms_reduction :
    (∀ (t : ℕ) (qs : List Quote),
      (∀ q ∈ acceptedQuotes qs, q.bid ≤ (bucketFold t qs).bestBid) ∧
      (∀ q ∈ acceptedQuotes qs, ∀ a, (bucketFold t qs).bestAsk = some a → a ≤ q.ask) ∧
      (acceptedQuotes qs ≠ [] →
        (∃ q ∈ acceptedQuotes qs,
          (bucketFold t qs).bestBid = q.bid ∧ (bucketFold t qs).bidSz = q.bidSize) ∧
        (∃ q ∈ acceptedQuotes qs,
          (bucketFold t qs).bestAsk = some q.ask ∧ (bucketFold t qs).askSz = q.askSize))) ∧
    processFile S_event logDemo [s1_quote1, s1_quote2] = [s1_row] := by
  refine ⟨fun t qs => ⟨fold_bid_le qs _, fold_ask_le qs _, fun hne => ⟨?_, ?_⟩⟩, by decide⟩
  · rcases fold_bid_attained qs (NBBOBucket.reset t) with hatt | ⟨hbid, _⟩
    · exact hatt
    · obtain ⟨q, hq⟩ := List.exists_mem_of_ne_nil _ hne
      have hpos := (mem_accepted hq).1
      have hle := fold_bid_le qs (NBBOBucket.reset t) q hq
      rw [bucketFold] at *
      rw [hbid] at hle
      simp [NBBOBucket.reset] at hle
      exact absurd hle (not_le.mpr hpos)
  · rcases fold_ask_attained qs (NBBOBucket.reset t) with hatt | ⟨hask, _⟩
    · exact hatt
    · have hsome := fold_ask_isSome qs (NBBOBucket.reset t) hne
      rw [bucketFold] at *
      rw [hask] at hsome
      simp [NBBOBucket.reset] at hsome

/-- C9 witness: a one-quote bucket attains its own bid and ask. -/
theorem c9_per_ms_reduction_witness :
    acceptedQuotes [⟨0, 1, 2, 3, 4, 'P'⟩] ≠ [] ∧
    (∃ q ∈ acceptedQuotes [⟨0, 1, 2, 3, 4, 'P'⟩],
      (bucketFold 7 [⟨0, 1, 2, 3, 4, 'P'⟩]).bestBid = q.bid ∧
      (bucketFold 7 [⟨0, 1, 2, 3, 4, 'P'⟩]).bidSz = q.bidSize) := by
  refine ⟨by decide, ?_⟩
  exact (((c9_per_ms_reduction.1 7 [⟨0, 1, 2, 3, 4, 'P'⟩]).2.2) (by decide)).1

/-! ## C5: event-builder invariants -/

/-- Lexicographic step: a strictly larger `HHMMSSmmm`-weighted digit
sum has a strictly larger millisecond-weighted digit sum, given in-range
minute/second digits. -/
theorem msm_digits_lt (A1 A2 A3 A4 B1 B2 B3 B4 : ℕ)
    (hA2 : A2 < 60) (hA3 : A3 < 60) (hA4 : A4 < 1000)
    (hB2 : B2 < 60) (hB3 : B3 < 60) (hB4 : B4 < 1000)
    (hlt : A1 * 10000000 + A2 * 100000 + A3 * 1000 + A4 <
           B1 * 10000000 + B2 * 100000 + B3 * 1000 + B4) :
    ((A1 * 60 + A2) * 60 + A3) * 1000 + A4 <
    ((B1 * 60 + B2) * 60 + B3) * 1000 + B4 := by
  omega

/-- Within one calendar day, a strictly larger well-formed timestamp has
a strictly larger millisecond-of-day. -/
theorem msm_lt_of_same_day_lt {a b : ℕ} (hd : same_day a b)
    (hva : ValidTs a) (hvb : ValidTs b) (hab : a < b) :
    ms_since_midnight a < ms_since_midnight b := by
  unfold same_day ymd at hd
  unfold ValidTs at hva hvb
  unfold hh mm ss at hva hvb
  unfold ms_since_midnight hh mm ss mmm
  refine msm_digits_lt _ _ _ _ _ _ _ _ hva.2.1 hva.2.2 (by omega)
    hvb.2.1 hvb.2.2 (by omega) ?_
  have da : a % 1000000000 = (a / 10000000 % 100) * 10000000
      + (a / 100000 % 100) * 100000 + (a / 1000 % 100) * 1000 + a % 1000 := by
    omega
  have db : b % 1000000000 = (b / 10000000 % 100) * 10000000
      + (b / 100000 % 100) * 100000 + (b / 1000 % 100) * 1000 + b % 1000 := by
    omega
  omega

theorem ages_proj (st : EvState) (ms : ℤ) (bid ask : ℚ) :
    (update_quote_ages st ms bid ask).out = st.out ∧
    (update_quote_ages st ms bid ask).prev_event = st.prev_event ∧
    (update_quote_ages st ms bid ask).have_prev_event = st.have_prev_event ∧
    (update_quote_ages st ms bid ask).curr_day = st.curr_day ∧
    (update_quote_ages st ms bid ask).have_day = st.have_day ∧
    (update_quote_ages st ms bid ask).last_move_sign = st.last_move_sign ∧
    (update_quote_ages st ms bid ask).events_detected = st.events_detected := by
  unfold update_quote_ages
  by_cases h1 : bid = st.last_bid_price <;> by_cases h2 : ask = st.last_ask_price <;>
    simp [h1, h2]

theorem label_proj (thr : ℚ) (st : EvState) (e : LabeledEvent) (m : ℤ) :
    (label_and_emit_prev thr st e m).prev_event = st.prev_event ∧
    (label_and_emit_prev thr st e m).have_prev_event = st.have_prev_event ∧
    (label_and_emit_prev thr st e m).curr_day = st.curr_day ∧
    (label_and_emit_prev thr st e m).have_day = st.have_day := by
  unfold label_and_emit_prev
  by_cases h1 : ¬ st.have_prev_event = true ∨ st.prev_event.day ≠ e.day
  · rcases h1 with h1 | h1 <;> simp [h1]
  · push_neg at h1
    by_cases h2 : |e.mid - st.prev_event.mid| ≤ thr <;> simp [h1.1, h1.2, h2]

/-- The single labelled event appended when `label_and_emit_prev` fires:
the pending event labelled by the current mid `emid` at time `m`. -/
def labelOf (prev : LabeledEvent) (emid : ℚ) (m : ℤ) : LabeledEvent :=
  { prev with
    mid_next := emid,
    y := if emid - prev.mid > 0 then (1 : ℚ)
         else if emid - prev.mid < 0 then -1 else 0,
    tau_ms := ((m - (ms_since_midnight prev.ts : ℤ) : ℤ) : ℚ) }

theorem label_out_pos (thr : ℚ) (st : EvState) (e : LabeledEvent) (m : ℤ)
    (h1 : st.have_prev_event = true) (h2 : st.prev_event.day = e.day)
    (h3 : |e.mid - st.prev_event.mid| ≤ thr) :
    (label_and_emit_prev thr st e m).out = st.out ++ [labelOf st.prev_event e.mid m] := by
  unfold label_and_emit_prev
  simp [labelOf, h1, h2, h3, sub_pos, sub_neg]

theorem label_out_stay (thr : ℚ) (st : EvState) (e : LabeledEvent) (m : ℤ)
    (h : ¬ st.have_prev_event = true ∨ st.prev_event.day ≠ e.day ∨
         ¬ |e.mid - st.prev_event.mid| ≤ thr) :
    (label_and_emit_prev thr st e m).out = st.out := by
  unfold label_and_emit_prev
  rcases h with h | h | h
  · simp [h]
  · simp [h]
  · by_cases h1 : ¬ st.have_prev_event = true ∨ st.prev_event.day ≠ e.day
    · rcases h1 with h1 | h1 <;> simp [h1]
    · push_neg at h1
      simp [h1.1, h1.2, h]

theorem label_no_prev (thr : ℚ) (st : EvState) (e : LabeledEvent) (m : ℤ)
    (h : st.have_prev_event = false) : label_and_emit_prev thr st e m = st := by
  unfold label_and_emit_prev
  simp [h]

theorem snd_proj (st : EvState) (d t : ℕ) (bb aa : ℚ) :
    (start_new_day st d t bb aa).out = st.out ∧
    (start_new_day st d t bb aa).prev_event = st.prev_event ∧
    (start_new_day st d t bb aa).have_prev_event = false ∧
    (start_new_day st d t bb aa).curr_day = d ∧
    (start_new_day st d t bb aa).have_day = true :=
  ⟨rfl, rfl, rfl, rfl, rfl⟩

theorem process_row_out (thr : ℚ) (st : EvState) (r : TickRowE) :
    (process_row thr st r).out = st.out ∨
    (st.have_prev_event = true ∧ st.have_day = true ∧
     day_from_ts r.ts = st.curr_day ∧ st.prev_event.day = day_from_ts r.ts ∧
     |r.mid - st.prev_event.mid| ≤ thr ∧
     (process_row thr st r).out
        = st.out ++ [labelOf st.prev_event r.mid ((ms_since_midnight r.ts : ℤ))]) := by
  unfold process_row
  simp only []
  set st1 := (if ¬ st.have_day = true ∨ day_from_ts r.ts ≠ st.curr_day
      then start_new_day st (day_from_ts r.ts) r.ts r.bid r.ask else st) with hst1
  set st2 := update_quote_ages st1 ((ms_since_midnight r.ts : ℤ)) r.bid r.ask with hst2
  have h2out : st2.out = st1.out := (ages_proj _ _ _ _).1
  have h2prev : st2.prev_event = st1.prev_event := (ages_proj _ _ _ _).2.1
  have h2hpe : st2.have_prev_event = st1.have_prev_event := (ages_proj _ _ _ _).2.2.1
  by_cases hday : ¬ st.have_day = true ∨ day_from_ts r.ts ≠ st.curr_day
  · -- a new day starts: the pending event is dropped, nothing is emitted
    have e1 : st1 = start_new_day st (day_from_ts r.ts) r.ts r.bid r.ask := by
      rw [hst1, if_pos hday]
    have e1out : st1.out = st.out := by
      rw [e1]; exact (snd_proj _ _ _ _ _).1
    have e1hpe : st1.have_prev_event = false := by
      rw [e1]; exact (snd_proj _ _ _ _ _).2.2.1
    left
    rcases r.lr with _ | lr
    · simp only [h2out, e1out]
    · by_cases hz : lr = 0
      · simp only [if_pos hz, h2out, e1out]
      · simp only [if_neg hz]
        rw [label_no_prev]
        · simp only [h2out, e1out]
        · simp only [h2hpe, e1hpe]
  · have e1 : st1 = st := by rw [hst1, if_neg hday]
    push_neg at hday
    rcases r.lr with _ | lr
    · left; simp only [h2out, e1]
    · by_cases hz : lr = 0
      · left; simp only [if_pos hz, h2out, e1]
      · simp only [if_neg hz]
        by_cases hp : st.have_prev_event = true
        · by_cases hpd : st.prev_event.day = day_from_ts r.ts
          · by_cases hgate : |r.mid - st.prev_event.mid| ≤ thr
            · right
              refine ⟨hp, hday.1, hday.2, hpd, hgate, ?_⟩
              rw [label_out_pos]
              · simp only [h2out, h2prev, e1]
              · simp only [h2hpe, e1, hp]
              · simp only [h2prev, e1, hpd]
              · simpa only [h2prev, e1] using hgate
            · left
              rw [label_out_stay]
              · simp only [h2out, e1]
              · right; right
                simpa only [h2prev, e1] using hgate
          · left
            rw [label_out_stay]
            · simp only [h2out, e1]
            · right; left
              simpa only [h2prev, e1] using hpd
        · left
          rw [label_out_stay]
          · simp only [h2out, e1]
          · left
            simpa only [h2hpe, e1] using hp

theorem process_row_prev (thr : ℚ) (st : EvState) (r : TickRowE) :
    (process_row thr st r).curr_day = day_from_ts r.ts ∧
    (process_row thr st r).have_day = true ∧
    ((process_row thr st r).have_prev_event = true →
      ((process_row thr st r).prev_event.ts = r.ts ∧
       (process_row thr st r).prev_event.day = day_from_ts r.ts) ∨
      ((process_row thr st r).prev_event = st.prev_event ∧ st.have_prev_event = true ∧
       st.have_day = true ∧ day_from_ts r.ts = st.curr_day)) := by
  unfold process_row
  simp only []
  set st1 := (if ¬ st.have_day = true ∨ day_from_ts r.ts ≠ st.curr_day
      then start_new_day st (day_from_ts r.ts) r.ts r.bid r.ask else st) with hst1
  set st2 := update_quote_ages st1 ((ms_since_midnight r.ts : ℤ)) r.bid r.ask with hst2
  have h2prev : st2.prev_event = st1.prev_event := (ages_proj _ _ _ _).2.1
  have h2hpe : st2.have_prev_event = st1.have_prev_event := (ages_proj _ _ _ _).2.2.1
  have h2curr : st2.curr_day = st1.curr_day := (ages_proj _ _ _ _).2.2.2.1
  have h2hd : st2.have_day = st1.have_day := (ages_proj _ _ _ _).2.2.2.2.1
  have hcurr1 : st1.curr_day = day_from_ts r.ts ∧ st1.have_day = true := by
    by_cases hday : ¬ st.have_day = true ∨ day_from_ts r.ts ≠ st.curr_day
    · rw [hst1, if_pos hday]
      exact ⟨(snd_proj _ _ _ _ _).2.2.2.1, (snd_proj _ _ _ _ _).2.2.2.2⟩
    · rw [hst1, if_neg hday]
      push_neg at hday
      exact ⟨hday.2.symm, hday.1⟩
  rcases r.lr with _ | lr
  · refine ⟨by rw [h2curr, hcurr1.1], by rw [h2hd, hcurr1.2], ?_⟩
    intro hpe
    by_cases hday : ¬ st.have_day = true ∨ day_from_ts r.ts ≠ st.curr_day
    · exfalso
      rw [h2hpe, hst1, if_pos hday, (snd_proj _ _ _ _ _).2.2.1] at hpe
      exact Bool.false_ne_true hpe
    · push_neg at hday
      right
      have e1 : st1 = st := by rw [hst1, if_neg (by push_neg; exact hday)]
      rw [h2hpe, e1] at hpe
      exact ⟨by rw [h2prev, e1], hpe, hday.1, hday.2⟩
  · by_cases hz : lr = 0
    · simp only [if_pos hz]
      refine ⟨by rw [h2curr, hcurr1.1], by rw [h2hd, hcurr1.2], ?_⟩
      intro hpe
      by_cases hday : ¬ st.have_day = true ∨ day_from_ts r.ts ≠ st.curr_day
      · exfalso
        rw [h2hpe, hst1, if_pos hday, (snd_proj _ _ _ _ _).2.2.1] at hpe
        exact Bool.false_ne_true hpe
      · push_neg at hday
        right
        have e1 : st1 = st := by rw [hst1, if_neg (by push_neg; exact hday)]
        refine ⟨by rw [h2prev, e1], ?_, hday.1, hday.2⟩
        rw [h2hpe, e1] at hpe
        exact hpe
    · simp only [if_neg hz]
      refine ⟨?_, ?_, ?_⟩
      · show (label_and_emit_prev thr _ _ _).curr_day = _
        rw [(label_proj _ _ _ _).2.2.1]
        show st2.curr_day = _
        rw [h2curr, hcurr1.1]
      · show (label_and_emit_prev thr _ _ _).have_day = _
        rw [(label_proj _ _ _ _).2.2.2]
        show st2.have_day = _
        rw [h2hd, hcurr1.2]
      · intro _
        left
        exact ⟨trivial, trivial⟩

/-- The shape every emitted LabeledEvent must have (C5). -/
def GoodEvent (thr : ℚ) (e : LabeledEvent) : Prop :=
  e.y = (if e.mid_next - e.mid > 0 then (1 : ℚ)
         else if e.mid_next - e.mid < 0 then -1 else 0) ∧
  0 < e.tau_ms ∧ day_from_ts e.ts = e.day ∧ |e.mid_next - e.mid| ≤ thr

theorem goodEvent_labelOf (thr : ℚ) (prev : LabeledEvent) (emid : ℚ) (m : ℤ)
    (hday : day_from_ts prev.ts = prev.day)
    (hgate : |emid - prev.mid| ≤ thr)
    (hms : (ms_since_midnight prev.ts : ℤ) < m) :
    GoodEvent thr (labelOf prev emid m) := by
  refine ⟨rfl, ?_, hday, hgate⟩
  show (0 : ℚ) < ((m - (ms_since_midnight prev.ts : ℤ) : ℤ) : ℚ)
  exact_mod_cast sub_pos.mpr hms

theorem process_fold_good (thr : ℚ) :
    ∀ (rows : List TickRowE) (st : EvState),
      (∀ r ∈ rows, ValidTs r.ts) →
      List.Chain' (fun a b => same_day a.ts b.ts → a.ts < b.ts) rows →
      (∀ e ∈ st.out, GoodEvent thr e) →
      (st.have_prev_event = true →
        day_from_ts st.prev_event.ts = st.prev_event.day ∧
        st.prev_event.day = st.curr_day ∧ ValidTs st.prev_event.ts) →
      (∀ b ∈ rows.head?, st.have_prev_event = true →
        day_from_ts b.ts = st.prev_event.day →
        ms_since_midnight st.prev_event.ts < ms_since_midnight b.ts) →
      ∀ e ∈ (rows.foldl (process_row thr) st).out, GoodEvent thr e := by
  intro rows
  induction rows with
  | nil =>
    intro st _ _ hout _ _
    simpa using hout
  | cons b rest ih =>
    intro st hval hchain hout hprev hlink
    rw [List.foldl_cons]
    apply ih (process_row thr st b)
    · intro r hr; exact hval r (List.mem_cons_of_mem _ hr)
    · exact hchain.tail
    · rcases process_row_out thr st b with hsame | ⟨hp, hhd, hdc, hpd, hgate, hext⟩
      · rw [hsame]; exact hout
      · rw [hext]
        intro e he
        rcases List.mem_append.mp he with he | he
        · exact hout e he
        · rw [List.mem_singleton.mp he]
          apply goodEvent_labelOf
          · exact (hprev hp).1
          · exact hgate
          · exact_mod_cast hlink b (by simp) hp hpd.symm
    · intro hpe
      rcases (process_row_prev thr st b).2.2 hpe with ⟨hts, hdy⟩ | ⟨hpeq, hp0, _, hdc0⟩
      · refine ⟨by rw [hts, hdy], ?_, by rw [hts]; exact hval b (by simp)⟩
        rw [hdy, (process_row_prev thr st b).1]
      · obtain ⟨h1, h2, h3⟩ := hprev hp0
        rw [hpeq]
        refine ⟨h1, ?_, h3⟩
        rw [(process_row_prev thr st b).1, h2, hdc0]
    · cases rest with
      | nil =>
        intro c hc
        simp at hc
      | cons c0 rest' =>
        intro c hc hpe hdayc
        have hceq : c0 = c := by simpa using hc
        have hbc : same_day b.ts c.ts → b.ts < c.ts := by
          rw [← hceq]
          exact (List.chain'_cons.mp hchain).1
        have hvb : ValidTs b.ts := hval b (by simp)
        have hvc : ValidTs c.ts := by
          rw [← hceq]
          exact hval c0 (by simp)
        rcases (process_row_prev thr st b).2.2 hpe with ⟨hts, hdy⟩ | ⟨hpeq, hp0, _, hdc0⟩
        · rw [hts]
          rw [hdy] at hdayc
          have hsame : same_day b.ts c.ts := by
            unfold same_day
            unfold day_from_ts at hdayc
            exact hdayc.symm
          exact msm_lt_of_same_day_lt hsame hvb hvc (hbc hsame)
        · rw [hpeq]
          rw [hpeq] at hdayc
          obtain ⟨_, h2, _⟩ := hprev hp0
          have hpdb : st.prev_event.day = day_from_ts b.ts := by rw [h2, hdc0]
          have hmsb : ms_since_midnight st.prev_event.ts < ms_since_midnight b.ts :=
            hlink b (by simp) hp0 hpdb.symm
          have hsame : same_day b.ts c.ts := by
            unfold same_day ymd
            unfold day_from_ts at hdayc hpdb
            rw [← hpdb]
            exact hdayc.symm
          exact lt_trans hmsb (msm_lt_of_same_day_lt hsame hvb hvc (hbc hsame))

/-- C5.  On a Tick stream whose well-formed timestamps strictly increase
within each calendar day, every LabeledEvent the builder emits satisfies
`y = sign(mid_next − mid)`, `tau_ms > 0`, `day_from_ts ts = day` (the
event and its labelling event share that day) and
`|mid_next − mid| ≤ threshold_next`. -/
theorem c5_labeled_event_invariants (thr : ℚ) (rows : List TickRowE)
    (hval : ∀ r ∈ rows, ValidTs r.ts)
    (hinc : List.Chain' (fun a b => same_day a.ts b.ts → a.ts < b.ts) rows) :
    ∀ e ∈ (buildEvents thr rows).out,
      e.y = (if e.mid_next - e.mid > 0 then (1 : ℚ)
             else if e.mid_next - e.mid < 0 then -1 else 0) ∧
      0 < e.tau_ms ∧ day_from_ts e.ts = e.day ∧ |e.mid_next - e.mid| ≤ thr := by
  have hmain : ∀ e ∈ (rows.foldl (process_row thr) ({} : EvState)).out, GoodEvent thr e := by
    apply process_fold_good thr rows {} hval hinc
    · intro e he; simp at he
    · intro h; simp at h
    · intro b _ h; simp at h
  intro e he
  have hfe : (buildEvents thr rows).out = (rows.foldl (process_row thr) {}).out := by
    unfold buildEvents finish_day
    split_ifs <;> rfl
  rw [hfe] at he
  exact hmain e he

/-- A small single-day stream: the mid change at ms 7 is labelled by the
mid change at ms 14. -/
def c5_rows : List TickRowE :=
  [{ ts := 20200102093000000, mid := 100, lr := none, bid_size := 5, ask_size := 5,
     spread := 0.02, bid := 99.99, ask := 100.01 },
   { ts := 20200102093000007, mid := 100.05, lr := some 1, bid_size := 5, ask_size := 5,
     spread := 0.02, bid := 100.04, ask := 100.06 },
   { ts := 20200102093000014, mid := 100.03, lr := some 1, bid_size := 5, ask_size := 5,
     spread := 0.02, bid := 100.02, ask := 100.04 }]

/-- The single event emitted on `c5_rows`. -/
def c5_event : LabeledEvent :=
  { ts := 20200102093000007, day := 20200102, mid := 100.05, mid_next := 100.03,
    spread := 0.02, imbalance := 0, age_diff_ms := 0, last_move := 0,
    y := -1, tau_ms := 7 }

/-- C5 witness: the invariants instantiated on the concrete stream. -/
theorem c5_labeled_event_invariants_witness :
    0 < c5_event.tau_ms ∧ day_from_ts c5_event.ts = c5_event.day ∧
    c5_event.y = (if c5_event.mid_next - c5_event.mid > 0 then (1 : ℚ)
                  else if c5_event.mid_next - c5_event.mid < 0 then -1 else 0) ∧
    |c5_event.mid_next - c5_event.mid| ≤ 1 := by
  have h := c5_labeled_event_invariants 1 c5_rows (by decide)
      (List.chain'_cons.mpr ⟨by decide,
        List.chain'_cons.mpr ⟨by decide, List.chain'_singleton _⟩⟩)
      c5_event (by decide)
  exact ⟨h.2.1, h.2.2.1, h.1, h.2.2.2⟩

/-! ## C6: PnL aggregator invariants -/

/-- Sum of per-trade net returns. -/
def sumNet (l : List TradeRecord) : ℚ := (l.map TradeRecord.net_ret).sum

/-- The aggregator invariant relative to the trades accepted so far. -/
def PnlInv (processed : List TradeRecord) (st : PnLState) : Prop :=
  st.cumulative_net = sumNet processed ∧
  (∀ t ∈ processed, 0 < t.day ∧ t.day ≤ st.current_day) ∧
  (∀ r ∈ st.daily_rows, r.day < st.current_day) ∧
  List.Pairwise (fun a b => a.day < b.day) st.daily_rows ∧
  (∀ r ∈ st.daily_rows,
    r.cumulative_net_ret = sumNet (processed.filter (fun t => t.day ≤ r.day)))

theorem FlushCurrentDay_spec (st : PnLState) :
    (FlushCurrentDay st).current_day = st.current_day ∧
    (FlushCurrentDay st).cumulative_net = st.cumulative_net ∧
    ((FlushCurrentDay st).daily_rows = st.daily_rows ∨
     ((FlushCurrentDay st).daily_rows = st.daily_rows ++
       [{ day := st.current_day, num_trades := st.day_trade_count,
          gross_ret_sum := st.day_gross_sum, net_ret_sum := st.day_net_sum,
          gross_ret_mean := st.day_gross_sum / (st.day_trade_count : ℚ),
          net_ret_mean := st.day_net_sum / (st.day_trade_count : ℚ),
          cumulative_net_ret := st.cumulative_net }] ∧ st.current_day ≠ 0)) := by
  unfold FlushCurrentDay
  by_cases h : st.current_day = 0 ∨ st.day_trade_count = 0
  · simp [h]
  · push_neg at h
    simp only [not_or.mpr ⟨h.1, h.2⟩, if_neg]
    exact ⟨rfl, rfl, Or.inr ⟨rfl, h.1⟩⟩

theorem sumNet_append (l : List TradeRecord) (t : TradeRecord) :
    sumNet (l ++ [t]) = sumNet l + t.net_ret := by
  simp [sumNet]

theorem sumNet_filter_all (l : List TradeRecord) (d : ℕ)
    (h : ∀ t ∈ l, t.day ≤ d) :
    sumNet (l.filter (fun t => t.day ≤ d)) = sumNet l := by
  congr 1
  exact List.filter_eq_self.mpr (fun t ht => by simpa using h t ht)

theorem OnTrade_current (st : PnLState) (t : TradeRecord) (h : t.day ≠ 0) :
    (OnTrade st t).current_day = t.day := by
  unfold OnTrade
  by_cases h0 : st.current_day = 0
  · simp [h, h0]
  · by_cases h1 : t.day ≠ st.current_day
    · simp [h, h0, h1]
    · push_neg at h1
      simp [h, h0, h1]

theorem OnTrade_inv (processed : List TradeRecord) (st : PnLState) (t : TradeRecord)
    (hday : 0 < t.day) (hcur : st.current_day ≤ t.day)
    (h : PnlInv processed st) : PnlInv (processed ++ [t]) (OnTrade st t) := by
  obtain ⟨hA, hD, hE, hC, hB⟩ := h
  have hdz : ¬ t.day = 0 := by omega
  unfold OnTrade
  simp only [if_neg hdz]
  by_cases h0 : st.current_day = 0
  · -- first trade of the year; the invariant forces processed/rows empty
    have hproc : processed = [] := by
      cases processed with
      | nil => rfl
      | cons p ps =>
        have := hD p (by simp)
        omega
    have hrows : st.daily_rows = [] := by
      cases hr : st.daily_rows with
      | nil => rfl
      | cons r rs =>
        have := hE r (by rw [hr]; simp)
        omega
    subst hproc
    simp only [if_pos h0]
    refine ⟨?_, ?_, ?_, ?_, ?_⟩
    · show st.cumulative_net + t.net_ret = _
      rw [hA]
      simp [sumNet]
    · intro t' ht'
      simp only [List.nil_append, List.mem_singleton] at ht'
      subst ht'
      exact ⟨hday, le_refl _⟩
    · intro r hr
      show r.day < t.day
      exact absurd (hrows ▸ hr) (List.not_mem_nil r)
    · show List.Pairwise _ st.daily_rows
      rw [hrows]
      exact List.Pairwise.nil
    · intro r hr
      exact absurd (hrows ▸ hr) (List.not_mem_nil r)
  · by_cases h1 : t.day ≠ st.current_day
    · -- day change: flush the open day, then open t.day
      have hlt : st.current_day < t.day := by omega
      simp only [if_neg h0, if_pos h1]
      obtain ⟨hfc, hfcum, hfrows⟩ := FlushCurrentDay_spec st
      refine ⟨?_, ?_, ?_, ?_, ?_⟩
      · show (FlushCurrentDay st).cumulative_net + t.net_ret = _
        rw [hfcum, hA, sumNet_append]
      · intro t' ht'
        rcases List.mem_append.mp ht' with ht' | ht'
        · obtain ⟨hp1, hp2⟩ := hD t' ht'
          exact ⟨hp1, by show t'.day ≤ t.day; omega⟩
        · rw [List.mem_singleton.mp ht']
          exact ⟨hday, le_refl _⟩
      · intro r hr
        show r.day < t.day
        rcases hfrows with hfr | ⟨hfr, _⟩
        · rw [hfr] at hr
          have := hE r hr
          omega
        · rw [hfr] at hr
          rcases List.mem_append.mp hr with hr | hr
          · have := hE r hr
            omega
          · rw [List.mem_singleton.mp hr]
            exact hlt
      · show List.Pairwise _ (FlushCurrentDay st).daily_rows
        rcases hfrows with hfr | ⟨hfr, _⟩
        · rw [hfr]; exact hC
        · rw [hfr]
          refine List.pairwise_append.mpr ⟨hC, List.pairwise_singleton _ _, ?_⟩
          intro r hr r' hr'
          rw [List.mem_singleton.mp hr']
          exact hE r hr
      · intro r hr
        have hmain : ∀ r' , r' ∈ st.daily_rows →
            r'.cumulative_net_ret =
              sumNet ((processed ++ [t]).filter (fun x => x.day ≤ r'.day)) := by
          intro r' hr'
          have hrd : r'.day < t.day := by
            have := hE r' hr'
            omega
          rw [List.filter_append]
          have : [t].filter (fun x => decide (x.day ≤ r'.day)) = [] := by
            simp only [List.filter_cons, List.filter_nil]
            rw [if_neg]
            simp only [decide_eq_true_eq]
            omega
          rw [this, List.append_nil]
          exact hB r' hr'
        rcases hfrows with hfr | ⟨hfr, _⟩
        · rw [hfr] at hr
          exact hmain r hr
        · rw [hfr] at hr
          rcases List.mem_append.mp hr with hr | hr
          · exact hmain r hr
          · rw [List.mem_singleton.mp hr]
            show st.cumulative_net = _
            rw [List.filter_append]
            have ht1 : [t].filter (fun x => decide (x.day ≤ st.current_day)) = [] := by
              simp only [List.filter_cons, List.filter_nil]
              rw [if_neg]
              simp only [decide_eq_true_eq]
              omega
            rw [ht1, List.append_nil, hA]
            rw [sumNet_filter_all processed st.current_day (fun t' ht' => (hD t' ht').2)]
    · -- same trading day continues
      push_neg at h1
      simp only [if_neg h0, if_neg (by rw [h1]; simp : ¬ ¬ t.day = st.current_day)]
      refine ⟨?_, ?_, ?_, hC, ?_⟩
      · show st.cumulative_net + t.net_ret = _
        rw [hA, sumNet_append]
      · intro t' ht'
        rcases List.mem_append.mp ht' with ht' | ht'
        · obtain ⟨hp1, hp2⟩ := hD t' ht'
          exact ⟨hp1, hp2⟩
        · rw [List.mem_singleton.mp ht']
          exact ⟨hday, le_of_eq h1⟩
      · intro r hr
        exact hE r hr
      · intro r hr
        have hrd : r.day < t.day := by
          have := hE r hr
          omega
        rw [List.filter_append]
        have : [t].filter (fun x => decide (x.day ≤ r.day)) = [] := by
          simp only [List.filter_cons, List.filter_nil]
          rw [if_neg]
          simp only [decide_eq_true_eq]
          omega
        rw [this, List.append_nil]
        exact hB r hr

theorem pnl_fold_inv :
    ∀ (rest processed : List TradeRecord) (st : PnLState),
      (∀ t ∈ rest, 0 < t.day) →
      List.Pairwise (fun a b => a.day ≤ b.day) rest →
      (∀ t ∈ rest, st.current_day ≤ t.day) →
      PnlInv processed st →
      PnlInv (processed ++ rest) (rest.foldl OnTrade st) := by
  intro rest
  induction rest with
  | nil =>
    intro processed st _ _ _ h
    simpa using h
  | cons t rest' ih =>
    intro processed st hpos hpair hcur h
    rw [List.foldl_cons, show processed ++ t :: rest' = (processed ++ [t]) ++ rest' by simp]
    apply ih
    · intro t' ht'; exact hpos t' (List.mem_cons_of_mem _ ht')
    · exact (List.pairwise_cons.mp hpair).2
    · intro t' ht'
      rw [OnTrade_current st t (by have := hpos t (by simp); omega)]
      exact (List.pairwise_cons.mp hpair).1 t' ht'
    · exact OnTrade_inv processed st t (hpos t (by simp)) (hcur t (by simp)) h

theorem final_flush (processed : List TradeRecord) (st : PnLState)
    (h : PnlInv processed st) :
    List.Pairwise (fun a b => a.day < b.day) (FlushCurrentDay st).daily_rows ∧
    ∀ r ∈ (FlushCurrentDay st).daily_rows,
      r.cumulative_net_ret = sumNet (processed.filter (fun t => t.day ≤ r.day)) := by
  obtain ⟨hA, hD, hE, hC, hB⟩ := h
  obtain ⟨hfc, hfcum, hfrows⟩ := FlushCurrentDay_spec st
  rcases hfrows with hfr | ⟨hfr, _⟩
  · rw [hfr]
    exact ⟨hC, hB⟩
  · rw [hfr]
    constructor
    · refine List.pairwise_append.mpr ⟨hC, List.pairwise_singleton _ _, ?_⟩
      intro r hr r' hr'
      rw [List.mem_singleton.mp hr']
      exact hE r hr
    · intro r hr
      rcases List.mem_append.mp hr with hr | hr
      · exact hB r hr
      · rw [List.mem_singleton.mp hr]
        show st.cumulative_net = _
        rw [hA, sumNet_filter_all processed st.current_day (fun t' ht' => (hD t' ht').2)]

/-- C6.  For every stream of trades with nonzero, nondecreasing days,
after `StartYear` / the trades / `FinalizeYear` the emitted daily rows
are strictly increasing in day, and each row's `cumulative_net_ret`
equals the sum of `net_ret` over all accepted trades up to and including
that day. -/
theorem c6_pnl_daily_rows (trades : List TradeRecord)
    (h0 : ∀ t ∈ trades, 0 < t.day)
    (hsorted : List.Pairwise (fun a b => a.day ≤ b.day) trades) :
    List.Pairwise (fun a b => a.day < b.day) (runPnl trades).daily_rows ∧
    ∀ r ∈ (runPnl trades).daily_rows,
      r.cumulative_net_ret = sumNet (trades.filter (fun t => t.day ≤ r.day)) := by
  have hinit : PnlInv [] ({} : PnLState) := by
    refine ⟨by simp [sumNet], ?_, ?_, List.Pairwise.nil, ?_⟩ <;> intro x hx <;> simp at hx
  have hinv := pnl_fold_inv trades [] {} h0 hsorted (fun t _ => Nat.zero_le _) hinit
  rw [List.nil_append] at hinv
  exact final_flush trades _ hinv

/-- Trades used to instantiate C6. -/
def c6_trades : List TradeRecord :=
  [{ day := 20200102, gross_ret := 2, net_ret := 1 },
   { day := 20200102, gross_ret := 4, net_ret := 3 },
   { day := 20200103, gross_ret := 6, net_ret := 5 }]

/-- C6 witness: two days, strictly increasing, cumulative sums 4 and 9. -/
theorem c6_pnl_daily_rows_witness :
    List.Pairwise (fun a b => a.day < b.day) (runPnl c6_trades).daily_rows ∧
    (∀ r ∈ (runPnl c6_trades).daily_rows,
      r.cumulative_net_ret = sumNet (c6_trades.filter (fun t => t.day ≤ r.day))) ∧
    (runPnl c6_trades).daily_rows.map
      (fun r => (r.day, r.cumulative_net_ret)) = [(20200102, 4), (20200103, 9)] :=
  ⟨(c6_pnl_daily_rows c6_trades (by decide) (by decide)).1,
   (c6_pnl_daily_rows c6_trades (by decide) (by decide)).2,
   by decide⟩

/-! ## C2: Event→Clock synthesis vs the direct clock path -/

/-- Event-grid variant of a settings record. -/
def eventSettings (S : Settings) : Settings := { S with clock_grid := false, ffill := false }

/-- Clock-grid-with-ffill variant of a settings record. -/
def clockSettings (S : Settings) : Settings := { S with clock_grid := true, ffill := true }

/-- Whether the bounded-fill rule inserts fills between two consecutive
rows. -/
def fillablePair (S : Settings) (p r : Row) : Prop :=
  same_day p.ts r.ts ∧
  0 < (ms_since_midnight r.ts : ℤ) - (ms_since_midnight p.ts : ℤ) - 1 ∧
  (ms_since_midnight r.ts : ℤ) - (ms_since_midnight p.ts : ℤ) - 1 ≤ S.max_ffill_gap_ms

instance (S : Settings) (p r : Row) : Decidable (fillablePair S p r) :=
  inferInstanceAs (Decidable (_ ∧ _ ∧ _))

/-- The fills `convert_one` inserts before `r` given the already-emitted
rows. -/
def convFills (S : Settings) (rows : List Row) (r : Row) : List Row :=
  match rows.getLast? with
  | none => []
  | some p =>
    if same_day p.ts r.ts then
      let gap : ℤ := (ms_since_midnight r.ts : ℤ) - (ms_since_midnight p.ts : ℤ) - 1
      if 0 < gap ∧ gap ≤ S.max_ffill_gap_ms then mkFills p p.ts gap.toNat else []
    else []

theorem conv_fold_last (S : Settings) :
    ∀ (rows : List Row) (st : ConvState) (p : Row), rows.getLast? = some p →
      (rows.foldl (stepConv S) st).prev = p ∧
      (rows.foldl (stepConv S) st).have_prev = true ∧
      (rows.foldl (stepConv S) st).last_emit_ts = p.ts := by
  intro rows
  induction rows with
  | nil => intro st p hp; simp at hp
  | cons r rest ih =>
    intro st p hp
    rw [List.foldl_cons]
    cases rest with
    | nil =>
      simp only [List.getLast?_singleton, Option.some.injEq] at hp
      subst hp
      exact ⟨rfl, rfl, rfl⟩
    | cons r2 rest2 =>
      rw [List.getLast?_cons_cons] at hp
      exact ih (stepConv S st r) p hp

theorem convertOne_snoc (S : Settings) (rows : List Row) (r : Row) :
    convertOne S (rows ++ [r]) = convertOne S rows ++ convFills S rows r ++ [r] := by
  unfold convertOne
  rw [List.foldl_append, List.foldl_cons, List.foldl_nil]
  cases hlast : rows.getLast? with
  | none =>
    have hnil : rows = [] := List.getLast?_eq_none_iff.mp hlast
    subst hnil
    simp [stepConv, convFills]
  | some p =>
    obtain ⟨hprev, hhave, hle⟩ := conv_fold_last S rows {} p hlast
    have hcf : convFills S rows r =
        (if same_day p.ts r.ts then
          (if 0 < (ms_since_midnight r.ts : ℤ) - (ms_since_midnight p.ts : ℤ) - 1 ∧
              (ms_since_midnight r.ts : ℤ) - (ms_since_midnight p.ts : ℤ) - 1 ≤ S.max_ffill_gap_ms
           then mkFills p p.ts ((ms_since_midnight r.ts : ℤ) - (ms_since_midnight p.ts : ℤ) - 1).toNat
           else [])
         else []) := by
      unfold convFills
      rw [hlast]
    have hso : (stepConv S (List.foldl (stepConv S) {} rows) r).out =
        (List.foldl (stepConv S) {} rows).out ++
        (if (List.foldl (stepConv S) {} rows).have_prev = true then
          (if same_day (List.foldl (stepConv S) {} rows).last_emit_ts r.ts then
            (if 0 < (ms_since_midnight r.ts : ℤ) -
                  (ms_since_midnight (List.foldl (stepConv S) {} rows).last_emit_ts : ℤ) - 1 ∧
                (ms_since_midnight r.ts : ℤ) -
                  (ms_since_midnight (List.foldl (stepConv S) {} rows).last_emit_ts : ℤ) - 1
                  ≤ S.max_ffill_gap_ms
             then mkFills (List.foldl (stepConv S) {} rows).prev
                    (List.foldl (stepConv S) {} rows).last_emit_ts
                    ((ms_since_midnight r.ts : ℤ) -
                      (ms_since_midnight (List.foldl (stepConv S) {} rows).last_emit_ts : ℤ) - 1).toNat
             else [])
           else [])
         else []) ++ [r] := rfl
    rw [hso, hcf, hprev, hhave, hle]
    simp

/-- The coupling between an event-mode run and a clock-mode run of
stage A on the same quotes: all order-sensitive state coincides, the
clock output is the bounded-fill synthesis of the event output, and the
event state's baselines point at its last emitted row. -/
def AInv (S : Settings) (e c : AState) : Prop :=
  c.bucket = e.bucket ∧ c.prev_mid = e.prev_mid ∧ c.prev_date = e.prev_date ∧
  c.have_prev = e.have_prev ∧ c.prev_row = e.prev_row ∧
  c.have_prev_row = e.have_prev_row ∧ c.last_emit = e.last_emit ∧
  c.glitches = e.glitches ∧
  c.out = convertOne (clockSettings S) e.out ∧
  (e.have_prev_row = true → e.out.getLast? = some e.prev_row ∧ e.last_emit = e.prev_row.ts) ∧
  (e.have_prev_row = false → e.out = [])

theorem boundaryFills_event (S : Settings) (e : AState) (r : Row) :
    boundaryFills (eventSettings S) e r = [] := by
  unfold boundaryFills
  rw [if_neg]
  intro hcond
  exact Bool.false_ne_true hcond.1

theorem boundaryFills_clock (S : Settings) (e c : AState) (r : Row)
    (hpr : c.prev_row = e.prev_row) (hhpr : c.have_prev_row = e.have_prev_row)
    (hle : c.last_emit = e.last_emit)
    (hlr1 : e.have_prev_row = true → e.out.getLast? = some e.prev_row ∧ e.last_emit = e.prev_row.ts)
    (hlr0 : e.have_prev_row = false → e.out = []) :
    boundaryFills (clockSettings S) c r = convFills (clockSettings S) e.out r := by
  unfold boundaryFills
  by_cases hpr0 : e.have_prev_row = true
  · obtain ⟨hlast, hlet⟩ := hlr1 hpr0
    rw [if_pos ⟨rfl, rfl, by rw [hhpr]; exact hpr0⟩]
    unfold convFills
    rw [hlast, hle, hlet, hpr]
  · have hf : e.have_prev_row = false := by
      cases hb : e.have_prev_row
      · rfl
      · exact absurd hb hpr0
    rw [if_neg, convFills, hlr0 hf]
    · rfl
    · intro hcond
      rw [hhpr, hf] at hcond
      exact Bool.false_ne_true hcond.2.2

theorem emitBoundary_coupled (S : Settings) (logFn : ℚ → ℚ → ℚ) (e c : AState) (ts : ℕ)
    (h : AInv S e c) :
    AInv S (emitBoundary (eventSettings S) logFn e ts)
           (emitBoundary (clockSettings S) logFn c ts) := by
  obtain ⟨hb, hpm, hpd, hhp, hpr, hhpr, hle, hgl, hout, hlr1, hlr0⟩ := h
  have hsc : c.bucket.out (if c.have_prev then c.prev_mid else 0) true logFn
           = e.bucket.out (if e.have_prev then e.prev_mid else 0) true logFn := by
    rw [hb, hpm, hhp]
  unfold emitBoundary
  rw [hsc]
  cases hout0 : e.bucket.out (if e.have_prev then e.prev_mid else 0) true logFn with
  | none =>
    exact ⟨rfl, hpm, hpd, hhp, hpr, hhpr, hle, hgl, hout, hlr1, hlr0⟩
  | some r0 =>
    have hreq : (if ¬ c.have_prev = true ∨ ymd r0.ts ≠ c.prev_date then
                  { r0 with logret := none } else r0)
              = (if ¬ e.have_prev = true ∨ ymd r0.ts ≠ e.prev_date then
                  { r0 with logret := none } else r0) := by
      rw [hhp, hpd]
    simp only [hreq]
    set r := (if ¬ e.have_prev = true ∨ ymd r0.ts ≠ e.prev_date then
               { r0 with logret := none } else r0) with hrdef
    refine ⟨rfl, rfl, rfl, rfl, rfl, rfl, rfl, hgl, ?_, ?_, ?_⟩
    · show c.out ++ boundaryFills (clockSettings S) c r ++ [r] =
        convertOne (clockSettings S) (e.out ++ boundaryFills (eventSettings S) e r ++ [r])
      rw [boundaryFills_event, boundaryFills_clock S e c r hpr hhpr hle hlr1 hlr0,
        List.append_nil, convertOne_snoc, hout]
    · intro _
      constructor
      · show (e.out ++ boundaryFills (eventSettings S) e r ++ [r]).getLast? = some r
        rw [boundaryFills_event, List.append_nil, List.getLast?_concat]
      · rfl
    · intro hfalse
      exact absurd hfalse (by simp)

theorem stepA1_coupled (S : Settings) (e c : AState) (ts : ℕ) (h : AInv S e c) :
    AInv S (if e.bucket.ms = 0 then { e with bucket := NBBOBucket.reset ts } else e)
           (if c.bucket.ms = 0 then { c with bucket := NBBOBucket.reset ts } else c) := by
  obtain ⟨hb, hpm, hpd, hhp, hpr, hhpr, hle, hgl, hout, hlr1, hlr0⟩ := h
  rw [hb]
  by_cases h5 : e.bucket.ms = 0
  · rw [if_pos h5, if_pos h5]
    exact ⟨rfl, hpm, hpd, hhp, hpr, hhpr, hle, hgl, hout, hlr1, hlr0⟩
  · rw [if_neg h5, if_neg h5]
    exact ⟨hb, hpm, hpd, hhp, hpr, hhpr, hle, hgl, hout, hlr1, hlr0⟩

theorem stepA2_coupled (S : Settings) (logFn : ℚ → ℚ → ℚ) (e c : AState) (ts : ℕ)
    (h : AInv S e c) :
    AInv S (if ts ≠ e.bucket.ms then emitBoundary (eventSettings S) logFn e ts else e)
           (if ts ≠ c.bucket.ms then emitBoundary (clockSettings S) logFn c ts else c) := by
  rw [h.1]
  by_cases h6 : ts ≠ e.bucket.ms
  · rw [if_pos h6, if_pos h6]
    exact emitBoundary_coupled S logFn e c ts h
  · rw [if_neg h6, if_neg h6]
    exact h

theorem stepA3_coupled (S : Settings) (e c : AState) (q : Quote) (hh : ℕ)
    (h : AInv S e c) :
    AInv S
      { e with
        bucket := (e.bucket.upd q).1,
        glitches := e.glitches ++ glitchList (e.bucket.upd q).2 hh }
      { c with
        bucket := (c.bucket.upd q).1,
        glitches := c.glitches ++ glitchList (c.bucket.upd q).2 hh } := by
  obtain ⟨hb, hpm, hpd, hhp, hpr, hhpr, hle, hgl, hout, hlr1, hlr0⟩ := h
  rw [hb, hgl]
  exact ⟨rfl, hpm, hpd, hhp, hpr, hhpr, hle, rfl, hout, hlr1, hlr0⟩

theorem stepA_coupled (S : Settings) (logFn : ℚ → ℚ → ℚ) (e c : AState) (rq : RawQuote)
    (h : AInv S e c) :
    AInv S (stepA (eventSettings S) logFn e rq) (stepA (clockSettings S) logFn c rq) := by
  obtain ⟨hb, hpm, hpd, hhp, hpr, hhpr, hle, hgl, hout, hlr1, hlr0⟩ := h
  have hA : AInv S e c := ⟨hb, hpm, hpd, hhp, hpr, hhpr, hle, hgl, hout, hlr1, hlr0⟩
  have hex : is_good_ex rq.ex (clockSettings S) = is_good_ex rq.ex (eventSettings S) := rfl
  have hrth : in_rth rq.h rq.m rq.s (clockSettings S)
            = in_rth rq.h rq.m rq.s (eventSettings S) := rfl
  unfold stepA
  rw [hex, hrth]
  by_cases h1 : rq.qc ≠ ['R']
  · rw [if_pos h1, if_pos h1]; exact hA
  · rw [if_neg h1, if_neg h1]
    by_cases h2 : ¬ is_good_ex rq.ex (eventSettings S) = true
    · rw [if_pos h2, if_pos h2]; exact hA
    · rw [if_neg h2, if_neg h2]
      by_cases h3 : ¬ in_rth rq.h rq.m rq.s (eventSettings S) = true
      · rw [if_pos h3, if_pos h3]; exact hA
      · rw [if_neg h3, if_neg h3]
        by_cases h4 : rq.bid ≤ 0 ∨ rq.ask ≤ 0 ∨ rq.bidSize ≤ 0 ∨ rq.askSize ≤ 0
        · rw [if_pos h4, if_pos h4]
          exact ⟨hb, hpm, hpd, hhp, hpr, hhpr, hle, by rw [hgl], hout, hlr1, hlr0⟩
        · rw [if_neg h4, if_neg h4]
          exact stepA3_coupled S _ _
            { ts := mkTs rq, bid := rq.bid, ask := rq.ask,
              bidSize := rq.bidSize, askSize := rq.askSize, ex := rq.ex } rq.h
            (stepA2_coupled S logFn _ _ (mkTs rq)
              (stepA1_coupled S e c (mkTs rq) hA))

theorem foldA_coupled (S : Settings) (logFn : ℚ → ℚ → ℚ) (qs : List RawQuote) :
    ∀ (e c : AState), AInv S e c →
      AInv S (qs.foldl (stepA (eventSettings S) logFn) e)
             (qs.foldl (stepA (clockSettings S) logFn) c) := by
  induction qs with
  | nil => intro e c h; exact h
  | cons q rest ih =>
    intro e c h
    rw [List.foldl_cons, List.foldl_cons]
    exact ih _ _ (stepA_coupled S logFn e c q h)

theorem AInv_init (S : Settings) : AInv S {} {} := by
  refine ⟨rfl, rfl, rfl, rfl, rfl, rfl, rfl, rfl, rfl, ?_, ?_⟩
  · intro hcontra; exact absurd hcontra (by decide)
  · intro _; rfl

/-- Whether the bounded-fill rule would insert fills between the last
two rows of a stream (`true` when it would not, or when there are
fewer than two rows). -/
def lastTwoNotFillable (S : Settings) (rows : List Row) : Bool :=
  match rows.dropLast.getLast?, rows.getLast? with
  | some p, some r => ! decide (fillablePair S p r)
  | _, _ => true

theorem convFills_eq_nil (S : Settings) (rows : List Row) (r : Row)
    (h : ∀ p, rows.getLast? = some p → ¬ fillablePair S p r) :
    convFills S rows r = [] := by
  unfold convFills
  cases hl : rows.getLast? with
  | none => rfl
  | some p =>
    have hnf := h p hl
    show (if same_day p.ts r.ts then
            if 0 < (ms_since_midnight r.ts : ℤ) - (ms_since_midnight p.ts : ℤ) - 1 ∧
               (ms_since_midnight r.ts : ℤ) - (ms_since_midnight p.ts : ℤ) - 1 ≤
                 S.max_ffill_gap_ms
            then mkFills p p.ts
              ((ms_since_midnight r.ts : ℤ) - (ms_since_midnight p.ts : ℤ) - 1).toNat
            else []
          else []) = []
    by_cases hsd : same_day p.ts r.ts
    · rw [if_pos hsd, if_neg]
      intro hg
      exact hnf ⟨hsd, hg⟩
    · rw [if_neg hsd]

theorem flushA_coupled (S : Settings) (logFn : ℚ → ℚ → ℚ) (e c : AState)
    (h : AInv S e c)
    (hnf : lastTwoNotFillable (clockSettings S) (flushA logFn e).out = true) :
    (flushA logFn c).out = convertOne (clockSettings S) (flushA logFn e).out := by
  obtain ⟨hb, hpm, hpd, hhp, hpr, hhpr, hle, hgl, hout, hlr1, hlr0⟩ := h
  have hsc : c.bucket.out (if c.have_prev then c.prev_mid else 0) true logFn
           = e.bucket.out (if e.have_prev then e.prev_mid else 0) true logFn := by
    rw [hb, hpm, hhp]
  by_cases hms : e.bucket.ms ≠ 0
  · cases hr0 : e.bucket.out (if e.have_prev then e.prev_mid else 0) true logFn with
    | none =>
      have hfe : (flushA logFn e).out = e.out := by
        unfold flushA
        rw [if_pos hms, hr0]
      have hfc : (flushA logFn c).out = c.out := by
        unfold flushA
        rw [hhp, hpm, hb, if_pos hms, hr0]
      rw [hfe, hfc]
      exact hout
    | some r0 =>
      have hreq : (if ¬ c.have_prev = true ∨ ymd r0.ts ≠ c.prev_date then
                    { r0 with logret := none } else r0)
                = (if ¬ e.have_prev = true ∨ ymd r0.ts ≠ e.prev_date then
                    { r0 with logret := none } else r0) := by
        rw [hhp, hpd]
      set rr := (if ¬ e.have_prev = true ∨ ymd r0.ts ≠ e.prev_date then
                  { r0 with logret := none } else r0) with hrr
      have hfe : (flushA logFn e).out = e.out ++ [rr] := by
        unfold flushA
        rw [if_pos hms, hr0]
      have hfc : (flushA logFn c).out = c.out ++ [rr] := by
        unfold flushA
        rw [hhp, hpm, hpd, hb, if_pos hms, hr0]
      rw [hfe] at hnf
      have hnofill : convFills (clockSettings S) e.out rr = [] := by
        apply convFills_eq_nil
        intro p hp
        intro hfp
        have hnf2 : lastTwoNotFillable (clockSettings S) (e.out ++ [rr]) = true := hnf
        unfold lastTwoNotFillable at hnf2
        rw [List.dropLast_concat, List.getLast?_concat, hp] at hnf2
        have hnf3 : (! decide (fillablePair (clockSettings S) p rr)) = true := hnf2
        rw [decide_eq_true hfp] at hnf3
        exact Bool.false_ne_true hnf3
      rw [hfe, hfc, convertOne_snoc, hnofill, ← hout, List.append_nil]
  · have hfe : (flushA logFn e).out = e.out := by
      unfold flushA
      rw [if_neg hms]
    have hfc : (flushA logFn c).out = c.out := by
      unfold flushA
      rw [hb, if_neg hms]
    rw [hfe, hfc]
    exact hout

/-- Two same-day accepted quotes one clock-millisecond bucket apart
with a fillable gap of 1 ms between them (ms 100 and ms 102). -/
def c2_input : List RawQuote :=
  [{ s1_quote1 with msec := 100 },
   { s1_quote1 with msec := 102, bid := 100.00, ask := 100.03 }]

/-- Two same-day accepted quotes in adjacent clock milliseconds
(gap 0, nothing to fill). -/
def c2_input_ok : List RawQuote :=
  [{ s1_quote1 with msec := 100 },
   { s1_quote1 with msec := 101, bid := 100.00, ask := 100.03 }]

/-- C2 as stated is false: on two quotes at ms 100 and ms 102 the
direct clock path emits 2 Ticks (the EOF flush performs no forward
fill), while the Event→Clock synthesis fills the 1 ms hole and emits 3. -/
theorem c2_synthesis_refuted :
    processFile (clockSettings {}) logDemo c2_input
      ≠ convertOne (clockSettings {}) (processFile (eventSettings {}) logDemo c2_input) := by
  decide

/-- C2 (amended).  The direct clock path equals the Event→Clock
synthesis of the event path whenever the bounded-fill rule inserts
nothing between the last two event-grid rows (the EOF flush of
`process_file_to_msbin` emits the final Tick without a forward-fill
block, while `convert_one` fills before it). -/
theorem c2_event_clock_synthesis (S : Settings) (logFn : ℚ → ℚ → ℚ) (qs : List RawQuote)
    (hnf : lastTwoNotFillable (clockSettings S)
             (processFile (eventSettings S) logFn qs) = true) :
    processFile (clockSettings S) logFn qs
      = convertOne (clockSettings S) (processFile (eventSettings S) logFn qs) :=
  flushA_coupled S logFn _ _ (foldA_coupled S logFn qs {} {} (AInv_init S)) hnf

/-- The amended C2 theorem applied at a concrete input: adjacent-ms
quotes leave no hole before the final Tick, and the two paths agree. -/
theorem c2_event_clock_synthesis_witness :
    lastTwoNotFillable (clockSettings {})
        (processFile (eventSettings {}) logDemo c2_input_ok) = true ∧
    processFile (clockSettings {}) logDemo c2_input_ok
      = convertOne (clockSettings {}) (processFile (eventSettings {}) logDemo c2_input_ok) :=
  ⟨by decide, c2_event_clock_synthesis {} logDemo c2_input_ok (by decide)⟩

/-! ## Sorted-list theory for the tail-quantile estimator -/

theorem insertAsc_cons (x a : ℚ) (l : List ℚ) :
    insertAsc x (a :: l) = if x ≤ a then x :: a :: l else a :: insertAsc x l := rfl

theorem insertAsc_eq_orderedInsert (v : ℚ) (l : List ℚ) :
    insertAsc v l = List.orderedInsert (· ≤ ·) v l := by
  induction l with
  | nil => rfl
  | cons x xs ih =>
    rw [insertAsc_cons, List.orderedInsert, ih]

theorem sortAsc_eq_insertionSort (l : List ℚ) :
    sortAsc l = List.insertionSort (· ≤ ·) l := by
  induction l with
  | nil => rfl
  | cons x xs ih =>
    show insertAsc x (sortAsc xs) = _
    rw [List.insertionSort, ih, insertAsc_eq_orderedInsert]

theorem sortAsc_sorted (l : List ℚ) : (sortAsc l).Sorted (· ≤ ·) := by
  rw [sortAsc_eq_insertionSort]
  exact List.sorted_insertionSort _ l

theorem sortAsc_perm (l : List ℚ) : (sortAsc l).Perm l := by
  rw [sortAsc_eq_insertionSort]
  exact List.perm_insertionSort _ l

theorem sortAsc_canonical {s l : List ℚ} (hs : s.Sorted (· ≤ ·)) (hp : s.Perm l) :
    s = sortAsc l :=
  List.eq_of_perm_of_sorted (hp.trans (sortAsc_perm l).symm) hs (sortAsc_sorted l)

theorem sortAsc_of_sorted {s : List ℚ} (hs : s.Sorted (· ≤ ·)) : sortAsc s = s :=
  (sortAsc_canonical hs (List.Perm.refl s)).symm

theorem length_insertAsc (x : ℚ) (l : List ℚ) :
    (insertAsc x l).length = l.length + 1 := by
  induction l with
  | nil => rfl
  | cons a l' ih =>
    rw [insertAsc_cons]
    by_cases h : x ≤ a
    · rw [if_pos h]; rfl
    · rw [if_neg h, List.length_cons, List.length_cons, ih]

theorem insertAsc_sorted {l : List ℚ} (x : ℚ) (hs : l.Sorted (· ≤ ·)) :
    (insertAsc x l).Sorted (· ≤ ·) := by
  rw [insertAsc_eq_orderedInsert]
  exact hs.orderedInsert x l

theorem insertAsc_perm (x : ℚ) (l : List ℚ) : (insertAsc x l).Perm (x :: l) := by
  rw [insertAsc_eq_orderedInsert]
  exact List.perm_orderedInsert _ x l

theorem sortAsc_snoc (x : ℚ) (l : List ℚ) :
    sortAsc (l ++ [x]) = insertAsc x (sortAsc l) := by
  refine (sortAsc_canonical (insertAsc_sorted x (sortAsc_sorted l)) ?_).symm
  exact ((insertAsc_perm x (sortAsc l)).trans ((sortAsc_perm l).cons x)).trans
    (List.perm_append_singleton x l).symm

theorem sortAsc_comm (a b : List ℚ) : sortAsc (a ++ b) = sortAsc (b ++ a) := by
  refine List.eq_of_perm_of_sorted ?_ (sortAsc_sorted _) (sortAsc_sorted _)
  exact ((sortAsc_perm _).trans List.perm_append_comm).trans (sortAsc_perm _).symm

theorem sorted_le_getLast : ∀ (l : List ℚ), l.Sorted (· ≤ ·) → ∀ t, l.getLast? = some t →
    ∀ y ∈ l, y ≤ t := by
  intro l
  induction l with
  | nil => intro _ t ht y hy; exact absurd hy (List.not_mem_nil y)
  | cons a l' ih =>
    intro hs t ht y hy
    cases l' with
    | nil =>
      have ha : a = t := by simpa using ht
      have hy2 : y = a := by simpa using hy
      rw [hy2, ha]
    | cons b l'' =>
      rw [List.getLast?_cons_cons] at ht
      have hs1 := List.sorted_cons.mp hs
      rcases List.mem_cons.mp hy with rfl | hy'
      · exact (hs1.1 b (List.mem_cons_self b l'')).trans
          (ih hs1.2 t ht b (List.mem_cons_self b l''))
      · exact ih hs1.2 t ht y hy'

theorem insertAsc_replicate_self (x : ℚ) (n : ℕ) :
    insertAsc x (List.replicate n x) = List.replicate (n+1) x := by
  cases n with
  | zero => rfl
  | succ m =>
    rw [List.replicate_succ, insertAsc_cons, if_pos le_rfl, ← List.replicate_succ,
        ← List.replicate_succ]

theorem take_pred_eq_dropLast : ∀ (b : ℚ) (l : List ℚ),
    (b :: l).take l.length = (b :: l).dropLast := by
  intro b l
  induction l generalizing b with
  | nil => rfl
  | cons c l' ih =>
    rw [List.length_cons, List.take_succ_cons]
    show b :: (c :: l').take l'.length = b :: (c :: l').dropLast
    rw [ih c]

theorem take_insertAsc_ge (x : ℚ) : ∀ (T : List ℚ), T.Sorted (· ≤ ·) →
    ∀ t, T.getLast? = some t → t ≤ x → (insertAsc x T).take T.length = T := by
  intro T
  induction T with
  | nil => intro _ t ht _; simp at ht
  | cons a T' ih =>
    intro hs t ht htx
    cases T' with
    | nil =>
      have hat : a = t := by simpa using ht
      rw [insertAsc_cons]
      by_cases hxa : x ≤ a
      · have hxe : x = a := le_antisymm hxa (by rw [hat]; exact htx)
        rw [if_pos hxa]
        rw [List.length_cons, List.length_nil, List.take_succ_cons, hxe]
        rfl
      · rw [if_neg hxa]
        rfl
    | cons b T'' =>
      rw [List.getLast?_cons_cons] at ht
      have hs1 := List.sorted_cons.mp hs
      by_cases hxa : x ≤ a
      · have hat : a ≤ t :=
          (hs1.1 b (List.mem_cons_self b T'')).trans
            (sorted_le_getLast (b :: T'') hs1.2 t ht b (List.mem_cons_self b T''))
        have hta : t ≤ a := htx.trans hxa
        have hconst : ∀ y ∈ a :: b :: T'', y = a := by
          intro y hy
          rcases List.mem_cons.mp hy with rfl | hy'
          · rfl
          · exact le_antisymm
              ((sorted_le_getLast (b :: T'') hs1.2 t ht y hy').trans hta)
              (hs1.1 y hy')
        have hxe : x = a := le_antisymm hxa (hat.trans htx)
        have hrep : a :: b :: T'' = List.replicate (a :: b :: T'').length a :=
          List.eq_replicate_of_mem hconst
        rw [hxe, hrep, insertAsc_replicate_self, List.length_replicate,
            List.take_replicate]
        congr 1
        omega
      · rw [insertAsc_cons, if_neg hxa, List.length_cons, List.take_succ_cons,
            ih hs1.2 t ht htx]

theorem take_insertAsc_lt (x : ℚ) : ∀ (T : List ℚ), T.Sorted (· ≤ ·) →
    ∀ t, T.getLast? = some t → x < t →
    (insertAsc x T).take T.length = insertAsc x T.dropLast := by
  intro T
  induction T with
  | nil => intro _ t ht _; simp at ht
  | cons a T' ih =>
    intro hs t ht hxt
    cases T' with
    | nil =>
      have hat : a = t := by simpa using ht
      rw [insertAsc_cons, if_pos (le_of_lt (show x < a by rw [hat]; exact hxt))]
      rfl
    | cons b T'' =>
      rw [List.getLast?_cons_cons] at ht
      have hs1 := List.sorted_cons.mp hs
      by_cases hxa : x ≤ a
      · rw [insertAsc_cons, if_pos hxa, List.length_cons, List.take_succ_cons]
        show x :: (a :: b :: T'').take (b :: T'').length
           = insertAsc x (a :: (b :: T'').dropLast)
        rw [insertAsc_cons, if_pos hxa, take_pred_eq_dropLast]
        rfl
      · rw [insertAsc_cons, if_neg hxa, List.length_cons, List.take_succ_cons]
        show a :: (insertAsc x (b :: T'')).take (b :: T'').length
           = insertAsc x (a :: (b :: T'').dropLast)
        rw [insertAsc_cons x a ((b :: T'').dropLast), if_neg hxa, ih hs1.2 t ht hxt]

theorem sorted_take {l : List ℚ} (hs : l.Sorted (· ≤ ·)) (n : ℕ) :
    (l.take n).Sorted (· ≤ ·) :=
  List.Pairwise.sublist (List.take_sublist n l) hs

theorem push_low_spec (L : ℕ) (T : List ℚ) (hs : T.Sorted (· ≤ ·)) (hlen : T.length ≤ L)
    (x : ℚ) : push_low L T x = (insertAsc x T).take L := by
  by_cases hlt : T.length < L
  · unfold push_low
    rw [if_pos hlt, List.take_of_length_le]
    rw [length_insertAsc]
    omega
  · have hTL : T.length = L := le_antisymm hlen (not_lt.mp hlt)
    cases T with
    | nil =>
      have hL0 : L = 0 := by simpa using hTL.symm
      subst hL0
      rfl
    | cons a T' =>
      cases hT : (a :: T').getLast? with
      | none => simp at hT
      | some t =>
        unfold push_low
        rw [if_neg hlt, hT]
        show (if x < t then insertAsc x (a :: T').dropLast else a :: T')
           = List.take L (insertAsc x (a :: T'))
        by_cases hxt : x < t
        · rw [if_pos hxt, ← hTL]
          exact (take_insertAsc_lt x (a :: T') hs t hT hxt).symm
        · rw [if_neg hxt, ← hTL]
          exact (take_insertAsc_ge x (a :: T') hs t hT (not_lt.mp hxt)).symm

theorem take_insert_take (x : ℚ) : ∀ (L : ℕ) (A : List ℚ),
    (insertAsc x (A.take L)).take L = (insertAsc x A).take L := by
  intro L A
  induction A generalizing L with
  | nil => rw [List.take_nil]
  | cons a A' ih =>
    cases L with
    | zero => rfl
    | succ L' =>
      rw [List.take_succ_cons, insertAsc_cons, insertAsc_cons]
      by_cases hxa : x ≤ a
      · rw [if_pos hxa, if_pos hxa, List.take_succ_cons, List.take_succ_cons]
        cases L' with
        | zero => rfl
        | succ L'' =>
          rw [List.take_succ_cons, List.take_succ_cons, List.take_take]
          have hmin : min L'' (L'' + 1) = L'' := by omega
          rw [hmin]
      · rw [if_neg hxa, if_neg hxa, List.take_succ_cons, List.take_succ_cons, ih L']

theorem push_low_foldl (L : ℕ) : ∀ (xs ys : List ℚ),
    xs.foldl (push_low L) ((sortAsc ys).take L) = (sortAsc (ys ++ xs)).take L := by
  intro xs
  induction xs with
  | nil =>
    intro ys
    rw [List.append_nil]
    rfl
  | cons x xs' ih =>
    intro ys
    rw [List.foldl_cons,
        push_low_spec L _ (sorted_take (sortAsc_sorted ys) L) (List.length_take_le L _) x,
        take_insert_take, ← sortAsc_snoc, ih (ys ++ [x]), List.append_assoc,
        List.singleton_append]

theorem take_absorb_left (L : ℕ) (B C : List ℚ) :
    (sortAsc ((sortAsc B).take L ++ C)).take L = (sortAsc (B ++ C)).take L := by
  have h1 := push_low_foldl L C ((sortAsc B).take L)
  have h2 := push_low_foldl L C B
  rw [sortAsc_of_sorted (sorted_take (sortAsc_sorted B) L), List.take_take,
      Nat.min_self] at h1
  rw [← h1, ← h2]

theorem take_absorb_right (L : ℕ) (A C : List ℚ) :
    (sortAsc (A ++ (sortAsc C).take L)).take L = (sortAsc (A ++ C)).take L := by
  rw [sortAsc_comm A ((sortAsc C).take L), sortAsc_comm A C, take_absorb_left]

theorem mergedLows_fold (L : ℕ) : ∀ (shs : List (List (Option ℚ))) (ys : List ℚ),
    (shs.map fun sh => (finiteOf sh).foldl (push_low L) []).foldl
        (fun g l => l.foldl (push_low L) g) ((sortAsc ys).take L)
      = (sortAsc (ys ++ (shs.map finiteOf).flatten)).take L := by
  intro shs
  induction shs with
  | nil =>
    intro ys
    rw [List.map_nil, List.foldl_nil, List.map_nil, List.flatten_nil, List.append_nil]
  | cons sh rest ih =>
    intro ys
    rw [List.map_cons, List.foldl_cons]
    have hloc : (finiteOf sh).foldl (push_low L) [] = (sortAsc (finiteOf sh)).take L := by
      have h := push_low_foldl L (finiteOf sh) []
      have h0 : ((sortAsc ([] : List ℚ)).take L) = [] := List.take_nil
      rw [h0, List.nil_append] at h
      exact h
    show (rest.map fun sh => (finiteOf sh).foldl (push_low L) []).foldl
        (fun g l => l.foldl (push_low L) g)
        (((finiteOf sh).foldl (push_low L) []).foldl (push_low L) ((sortAsc ys).take L))
      = _
    rw [hloc, push_low_foldl L ((sortAsc (finiteOf sh)).take L) ys,
        take_absorb_right L ys (finiteOf sh), ih (ys ++ finiteOf sh),
        List.map_cons, List.flatten_cons, ← List.append_assoc]

theorem mergedLows_eq (L : ℕ) (shards : List (List (Option ℚ))) :
    mergedLows L shards = (sortAsc (allSamples shards)).take L := by
  have h := mergedLows_fold L shards []
  have h0 : ((sortAsc ([] : List ℚ)).take L) = [] := List.take_nil
  rw [h0, List.nil_append] at h
  exact h

theorem lastL_zero (l : List ℚ) : lastL 0 l = [] := by
  unfold lastL
  rw [Nat.sub_zero, List.drop_length]

theorem lastL_nil (L : ℕ) : lastL L [] = [] := by
  unfold lastL
  rw [List.drop_nil]

theorem lastL_of_le {l : List ℚ} {L : ℕ} (h : l.length ≤ L) : lastL L l = l := by
  unfold lastL
  rw [Nat.sub_eq_zero_of_le h, List.drop_zero]

theorem lastL_length (L : ℕ) (l : List ℚ) : (lastL L l).length = min L l.length := by
  unfold lastL
  rw [List.length_drop]
  omega

theorem lastL_cons_of_le {L : ℕ} {A' : List ℚ} (h : L ≤ A'.length) (a : ℚ) :
    lastL L (a :: A') = lastL L A' := by
  unfold lastL
  rw [List.length_cons]
  have he : A'.length + 1 - L = (A'.length - L) + 1 := by omega
  rw [he, List.drop_succ_cons]

theorem lastL_idem (L : ℕ) (l : List ℚ) : lastL L (lastL L l) = lastL L l :=
  lastL_of_le (by rw [lastL_length]; omega)

theorem sorted_lastL {l : List ℚ} (hs : l.Sorted (· ≤ ·)) (L : ℕ) :
    (lastL L l).Sorted (· ≤ ·) :=
  List.Pairwise.sublist (List.drop_sublist _ _) hs

theorem push_high_spec (L : ℕ) (T : List ℚ) (hlen : T.length ≤ L) (x : ℚ) :
    push_high L T x = lastL L (insertAsc x T) := by
  by_cases hlt : T.length < L
  · unfold push_high
    rw [if_pos hlt, lastL_of_le]
    rw [length_insertAsc]
    omega
  · have hTL : T.length = L := le_antisymm hlen (not_lt.mp hlt)
    cases T with
    | nil =>
      have hL0 : L = 0 := by simpa using hTL.symm
      subst hL0
      rfl
    | cons t rest =>
      unfold push_high
      rw [if_neg hlt]
      show (if x > t then insertAsc x rest else t :: rest) = lastL L (insertAsc x (t :: rest))
      rw [List.length_cons] at hTL
      by_cases hxt : x > t
      · rw [if_pos hxt, insertAsc_cons, if_neg (not_le.mpr hxt),
            lastL_cons_of_le (by rw [length_insertAsc]; omega),
            lastL_of_le (by rw [length_insertAsc]; omega)]
      · rw [if_neg hxt, insertAsc_cons, if_pos (not_lt.mp hxt),
            lastL_cons_of_le (by rw [List.length_cons]; omega),
            lastL_of_le (by omega)]

theorem lastL_insert_lastL (L : ℕ) (x : ℚ) :
    ∀ (A : List ℚ), A.Sorted (· ≤ ·) →
      lastL L (insertAsc x (lastL L A)) = lastL L (insertAsc x A) := by
  intro A
  induction A with
  | nil =>
    intro _
    rw [lastL_nil]
  | cons a A' ih =>
    intro hs
    have hs1 := List.sorted_cons.mp hs
    by_cases hlen : (a :: A').length ≤ L
    · rw [lastL_of_le hlen]
    · have hA'L : L ≤ A'.length := by
        rw [List.length_cons] at hlen; omega
      rw [lastL_cons_of_le hA'L, insertAsc_cons x a A']
      by_cases hxa : x ≤ a
      · rw [if_pos hxa, ih hs1.2,
            lastL_cons_of_le (by rw [List.length_cons]; omega),
            lastL_cons_of_le hA'L]
        cases A' with
        | nil =>
          have hL0 : L = 0 := Nat.le_zero.mp hA'L
          subst hL0
          rw [lastL_zero, lastL_zero]
        | cons b A'' =>
          have hxb : x ≤ b := hxa.trans (hs1.1 b (List.mem_cons_self b A''))
          rw [insertAsc_cons, if_pos hxb, lastL_cons_of_le hA'L]
      · rw [if_neg hxa,
            lastL_cons_of_le (by rw [length_insertAsc]; omega),
            ih hs1.2]

theorem push_high_foldl (L : ℕ) : ∀ (xs ys : List ℚ),
    xs.foldl (push_high L) (lastL L (sortAsc ys)) = lastL L (sortAsc (ys ++ xs)) := by
  intro xs
  induction xs with
  | nil =>
    intro ys
    rw [List.append_nil]
    rfl
  | cons x xs' ih =>
    intro ys
    rw [List.foldl_cons,
        push_high_spec L _ (by rw [lastL_length]; omega) x,
        lastL_insert_lastL L x (sortAsc ys) (sortAsc_sorted ys),
        ← sortAsc_snoc, ih (ys ++ [x]), List.append_assoc, List.singleton_append]

theorem last_absorb_left (L : ℕ) (B C : List ℚ) :
    lastL L (sortAsc (lastL L (sortAsc B) ++ C)) = lastL L (sortAsc (B ++ C)) := by
  have h1 := push_high_foldl L C (lastL L (sortAsc B))
  have h2 := push_high_foldl L C B
  rw [sortAsc_of_sorted (sorted_lastL (sortAsc_sorted B) L), lastL_idem] at h1
  rw [← h1, ← h2]

theorem last_absorb_right (L : ℕ) (A C : List ℚ) :
    lastL L (sortAsc (A ++ lastL L (sortAsc C))) = lastL L (sortAsc (A ++ C)) := by
  rw [sortAsc_comm A (lastL L (sortAsc C)), sortAsc_comm A C, last_absorb_left]

theorem mergedHighs_fold (L : ℕ) : ∀ (shs : List (List (Option ℚ))) (ys : List ℚ),
    (shs.map fun sh => (finiteOf sh).foldl (push_high L) []).foldl
        (fun g l => l.foldl (push_high L) g) (lastL L (sortAsc ys))
      = lastL L (sortAsc (ys ++ (shs.map finiteOf).flatten)) := by
  intro shs
  induction shs with
  | nil =>
    intro ys
    rw [List.map_nil, List.foldl_nil, List.map_nil, List.flatten_nil, List.append_nil]
  | cons sh rest ih =>
    intro ys
    rw [List.map_cons, List.foldl_cons]
    have hloc : (finiteOf sh).foldl (push_high L) [] = lastL L (sortAsc (finiteOf sh)) := by
      have h := push_high_foldl L (finiteOf sh) []
      have h0 : (lastL L (sortAsc ([] : List ℚ))) = [] := lastL_nil L
      rw [h0, List.nil_append] at h
      exact h
    show (rest.map fun sh => (finiteOf sh).foldl (push_high L) []).foldl
        (fun g l => l.foldl (push_high L) g)
        (((finiteOf sh).foldl (push_high L) []).foldl (push_high L) (lastL L (sortAsc ys)))
      = _
    rw [hloc, push_high_foldl L (lastL L (sortAsc (finiteOf sh))) ys,
        last_absorb_right L ys (finiteOf sh), ih (ys ++ finiteOf sh),
        List.map_cons, List.flatten_cons, ← List.append_assoc]

theorem mergedHighs_eq (L : ℕ) (shards : List (List (Option ℚ))) :
    mergedHighs L shards = lastL L (sortAsc (allSamples shards)) := by
  have h := mergedHighs_fold L shards []
  have h0 : (lastL L (sortAsc ([] : List ℚ))) = [] := lastL_nil L
  rw [h0, List.nil_append] at h
  exact h

theorem tq_N_fold_ge : ∀ (shs : List (List (Option ℚ))) (l N : ℕ),
    N + ((shs.map finiteOf).flatten).length
      ≤ (shs.foldl
          (fun st sh =>
            let locN := st.1 + (finiteOf sh).length
            (locN, st.2 + locN)) (l, N)).2 := by
  intro shs
  induction shs with
  | nil =>
    intro l N
    show N + ((List.map finiteOf []).flatten).length ≤ N
    rw [List.map_nil, List.flatten_nil, List.length_nil]
    omega
  | cons sh rest ih =>
    intro l N
    rw [List.foldl_cons, List.map_cons, List.flatten_cons, List.length_append]
    show N + ((finiteOf sh).length + ((rest.map finiteOf).flatten).length)
      ≤ (rest.foldl
          (fun st sh =>
            let locN := st.1 + (finiteOf sh).length
            (locN, st.2 + locN))
          (l + (finiteOf sh).length, N + (l + (finiteOf sh).length))).2
    have h := ih (l + (finiteOf sh).length) (N + (l + (finiteOf sh).length))
    omega

/-- The un-reset `locN` makes the code's `N_finite` an over-count of
the true number of finite samples (strictly so as soon as a worker
merges a second nonempty shard). -/
theorem tq_N_ge_length (shards : List (List (Option ℚ))) :
    (allSamples shards).length ≤ tq_N shards := by
  have h := tq_N_fold_ge shards 0 0
  rw [Nat.zero_add] at h
  exact h

theorem sortAsc_length (l : List ℚ) : (sortAsc l).length = l.length :=
  (sortAsc_perm l).length_eq

/-- The estimator in closed form: the merged heaps are the `L` smallest
and `L` largest samples, indexed by the clamped ranks. -/
theorem tail_quantiles_eq (L : ℕ) (q_lo q_hi : ℚ) (shards : List (List (Option ℚ)))
    (hne : tq_N shards ≠ 0) :
    tail_quantiles L q_lo q_hi shards =
      (((sortAsc (allSamples shards)).take L).get?
          (if (Int.floor (q_lo * tq_N shards)).toNat
                < ((sortAsc (allSamples shards)).take L).length then
             (Int.floor (q_lo * tq_N shards)).toNat
           else if ((sortAsc (allSamples shards)).take L).isEmpty then 0
           else ((sortAsc (allSamples shards)).take L).length - 1),
       (lastL L (sortAsc (allSamples shards))).get?
          (if (Int.floor (q_hi * tq_N shards)).toNat
                ≤ (if (lastL L (sortAsc (allSamples shards))).length < tq_N shards then
                     tq_N shards - (lastL L (sortAsc (allSamples shards))).length
                   else 0) then 0
           else min ((Int.floor (q_hi * tq_N shards)).toNat -
                  (if (lastL L (sortAsc (allSamples shards))).length < tq_N shards then
                     tq_N shards - (lastL L (sortAsc (allSamples shards))).length
                   else 0))
                 ((lastL L (sortAsc (allSamples shards))).length - 1)) ) := by
  show (if tq_N shards = 0 then (none, none)
        else
          ((mergedLows L shards).get?
             (if (Int.floor (q_lo * tq_N shards)).toNat < (mergedLows L shards).length then
                (Int.floor (q_lo * tq_N shards)).toNat
              else if (mergedLows L shards).isEmpty then 0
              else (mergedLows L shards).length - 1),
           (mergedHighs L shards).get?
             (if (Int.floor (q_hi * tq_N shards)).toNat
                   ≤ (if (mergedHighs L shards).length < tq_N shards then
                        tq_N shards - (mergedHighs L shards).length
                      else 0) then 0
              else min ((Int.floor (q_hi * tq_N shards)).toNat -
                     (if (mergedHighs L shards).length < tq_N shards then
                        tq_N shards - (mergedHighs L shards).length
                      else 0))
                    ((mergedHighs L shards).length - 1)))) = _
  rw [if_neg hne, mergedLows_eq, mergedHighs_eq]

/-- Rank selection relative to the *code\'s* (over-counted) `N_finite`:
with ranks `r_lo = ⌊q_lo·tq_N⌋`, `r_hi = ⌊q_hi·tq_N⌋`, the low cutoff
is exact at captured ranks (its index never involves `N`), while the
high cutoff subtracts `base = tq_N − |H_high|`, so a captured high rank
returns the sorted-dataset element at `r_hi − (tq_N − N)` — shifted
down by the over-count — and uncaptured ranks return the heap boundary.
The heaps themselves are unaffected by the `locN` bug (the local heaps
are drained at each merge); only `N` and hence the ranks are off. -/
theorem tail_quantile_rank_codeN (L : ℕ) (q_lo q_hi : ℚ) (shards : List (List (Option ℚ)))
    (hne : allSamples shards ≠ []) :
    ((Int.floor (q_lo * tq_N shards)).toNat
        < min L (allSamples shards).length →
      (tail_quantiles L q_lo q_hi shards).1
        = (sortAsc (allSamples shards)).get?
            (Int.floor (q_lo * tq_N shards)).toNat) ∧
    (0 < L →
      min L (allSamples shards).length
        ≤ (Int.floor (q_lo * tq_N shards)).toNat →
      (tail_quantiles L q_lo q_hi shards).1
        = (sortAsc (allSamples shards)).get?
            (min L (allSamples shards).length - 1)) ∧
    (tq_N shards - min L (allSamples shards).length
        < (Int.floor (q_hi * tq_N shards)).toNat →
      (Int.floor (q_hi * tq_N shards)).toNat < tq_N shards →
      (tail_quantiles L q_lo q_hi shards).2
        = (sortAsc (allSamples shards)).get?
            ((Int.floor (q_hi * tq_N shards)).toNat
              - (tq_N shards - (allSamples shards).length))) ∧
    ((Int.floor (q_hi * tq_N shards)).toNat
        ≤ tq_N shards - min L (allSamples shards).length →
      (tail_quantiles L q_lo q_hi shards).2
        = (sortAsc (allSamples shards)).get?
            ((allSamples shards).length - min L (allSamples shards).length)) := by
  have hnpos : 0 < (allSamples shards).length := List.length_pos.mpr hne
  have hgeN : (allSamples shards).length ≤ tq_N shards := tq_N_ge_length shards
  have hn0 : tq_N shards ≠ 0 := by omega
  have heq := tail_quantiles_eq L q_lo q_hi shards hn0
  set n := (allSamples shards).length with hndef
  set s := sortAsc (allSamples shards) with hsdef
  have hsl : s.length = n := sortAsc_length _
  have hlowlen : (s.take L).length = min L n := by
    rw [List.length_take, hsl]
  have hhighlen : (lastL L s).length = min L n := by
    rw [lastL_length, hsl]
  rw [hlowlen, hhighlen] at heq
  set r_lo := (Int.floor (q_lo * (tq_N shards : ℚ))).toNat with hrlo
  set r_hi := (Int.floor (q_hi * (tq_N shards : ℚ))).toNat with hrhi
  have hbase : (if min L n < tq_N shards then tq_N shards - min L n else 0)
      = tq_N shards - min L n := by
    split
    · rfl
    · omega
  rw [hbase] at heq
  have h1 : (tail_quantiles L q_lo q_hi shards).1
      = (s.take L).get? (if r_lo < min L n then r_lo
                         else if (s.take L).isEmpty then 0 else min L n - 1) := by
    rw [heq]
  have h2 : (tail_quantiles L q_lo q_hi shards).2
      = (lastL L s).get? (if r_hi ≤ tq_N shards - min L n then 0
                          else min (r_hi - (tq_N shards - min L n)) (min L n - 1)) := by
    rw [heq]
  refine ⟨?_, ?_, ?_, ?_⟩
  · intro hr
    rw [h1, if_pos hr]
    exact List.get?_take (by omega)
  · intro hL hr
    rw [h1, if_neg (not_lt.mpr hr)]
    have hemp : ¬ ((s.take L).isEmpty = true) := by
      intro h
      have hlen := congrArg List.length (List.isEmpty_iff.mp h)
      rw [hlowlen, List.length_nil] at hlen
      omega
    rw [if_neg hemp]
    exact List.get?_take (by omega)
  · intro hr1 hr2
    rw [h2, if_neg (not_le.mpr hr1)]
    have hmin : min (r_hi - (tq_N shards - min L n)) (min L n - 1)
        = r_hi - (tq_N shards - min L n) := by
      omega
    rw [hmin]
    show (s.drop (s.length - L)).get? (r_hi - (tq_N shards - min L n))
        = s.get? (r_hi - (tq_N shards - n))
    rw [List.get?_drop]
    congr 1
    omega
  · intro hr
    rw [h2, if_pos hr]
    show (s.drop (s.length - L)).get? 0 = s.get? (n - min L n)
    rw [List.get?_drop]
    congr 1
    omega

/-- C3.  The worker-local `locN` is never reset after the per-shard
merge `N_finite += locN`, so the code\'s `N_finite` over-counts: on
shards with finite samples `[1,2]` and `[3,4]` a single worker counts
`N = 2 + (2+4) = 6` instead of `4`.  With `L = 10` (both heaps capture
everything) and `q_lo = q_hi = 1/2` the claim requires both cutoffs to
be the rank-`⌊4/2⌋ = 2` element `3` of the sorted dataset `[1,2,3,4]`
(a rank inside both heaps), but the code\'s shifted ranks return
`cut_lo = 4` and `cut_hi = 2` instead. -/
theorem c3_locN_overcount :
    tq_N [[some 1, some 2], [some 3, some 4]] = 6 ∧
    (allSamples [[some 1, some 2], [some 3, some 4]]).length = 4 ∧
    (tail_quantiles 10 (1/2) (1/2) [[some 1, some 2], [some 3, some 4]]).1 = some 4 ∧
    (tail_quantiles 10 (1/2) (1/2) [[some 1, some 2], [some 3, some 4]]).2 = some 2 ∧
    (sortAsc (allSamples [[some 1, some 2], [some 3, some 4]])).get?
        (Int.floor ((1/2 : ℚ)
          * (allSamples [[some 1, some 2], [some 3, some 4]]).length)).toNat
      = some 3 := by
  decide
